import Mathlib

/-! # sherpa-ncnn `SymbolTable` (`sherpa-ncnn/csrc/symbol-table.cc`)

A shallow embedding of the symbol table of sherpa-ncnn: the parser `SymbolTable::Init`,
the serializer `SymbolTable::ToString`, the two `operator[]` lookups and the two
`contains` overloads, followed by theorems about them.

Conventions of the embedding.

* A `std::string` is the list of its bytes, each byte a natural number below 256.
* An `int32_t` is an `Int`; the only place where the 32-bit range matters is the
  integer extraction `is >> id`, which checks the range explicitly.
* A `std::istream` is the list of bytes not yet read together with its `eofbit` and
  `failbit` (nothing in this file can set `badbit`).
* `assert(e)` is modelled with assertions enabled: a failing assertion ends
  the construction with an `InitError` and no table.
* `std::map::at` throws `std::out_of_range` on a missing key: the lookups return
  `Option`, `none` standing for the exception.
-/

namespace SherpaNcnn

/-! ## Bytes and strings -/

/-- A `std::string`, as the list of its bytes. -/
abbrev Str := List Nat

/-- The UTF-8 encoding of one character, used to write inputs as string literals. -/
def utf8 (c : Char) : List Nat :=
  let n := c.toNat
  if n < 0x80 then [n]
  else if n < 0x800 then [0xC0 + n / 0x40, 0x80 + n % 0x40]
  else if n < 0x10000 then [0xE0 + n / 0x1000, 0x80 + n / 0x40 % 0x40, 0x80 + n % 0x40]
  else [0xF0 + n / 0x40000, 0x80 + n / 0x1000 % 0x40, 0x80 + n / 0x40 % 0x40, 0x80 + n % 0x40]

/-- The bytes of a string literal. -/
def bytes (s : String) : Str := s.toList.flatMap utf8

/-- The predicate `std::isspace` of the classic "C" locale, which `operator>>` uses to
skip and to delimit: space, `\t`, `\n`, `\v`, `\f`, `\r`. -/
def isspace (c : Nat) : Bool := c == 32 || (9 ≤ c && c ≤ 13)

/-- The decimal digits `'0'..'9'`. -/
def isdigit (c : Nat) : Bool := 48 ≤ c && c ≤ 57

/-- The order `std::less<std::string>`: `std::string::compare` compares the bytes as
unsigned values, the shorter string first when one is a prefix of the other. -/
def strLess : Str → Str → Bool
  | [], [] => false
  | [], _ :: _ => true
  | _ :: _, [] => false
  | a :: as, b :: bs => decide (a < b) || (a == b && strLess as bs)

/-- The order `std::less<int32_t>`. -/
def intLess (a b : Int) : Bool := decide (a < b)

/-! ## The two maps -/

/-- Modelled from the spec: the header `symbol-table.h`, which declares the container type
of `sym2id_` and `id2sym_`, is not part of the sources. The spec says the symbol→id mapping
is iterated "in ascending order of the symbol→id mapping's natural key ordering", with unique
keys, so a map is a list of key-value pairs kept in ascending key order. `mapInsert lt m k v`
is `m.insert({k, v})`: the pair is put at its place in the order, and nothing changes when
the key is already present. -/
def mapInsert {κ ν : Type} (lt : κ → κ → Bool) : List (κ × ν) → κ → ν → List (κ × ν)
  | [], k, v => [(k, v)]
  | (k', v') :: m, k, v =>
    if lt k k' then (k, v) :: (k', v') :: m
    else if lt k' k then (k', v') :: mapInsert lt m k v
    else (k', v') :: m

/-- The call `m.count(k)`: 1 when the key is present, 0 otherwise. -/
def mapCount {κ ν : Type} [DecidableEq κ] : List (κ × ν) → κ → Nat
  | [], _ => 0
  | (k', _) :: m, k => if k' = k then 1 else mapCount m k

/-- The call `m.at(k)`: the value stored under the key, `none` for `std::out_of_range`. -/
def mapAt {κ ν : Type} [DecidableEq κ] : List (κ × ν) → κ → Option ν
  | [], _ => none
  | (k', v') :: m, k => if k' = k then some v' else mapAt m k

/-- The data members of `SymbolTable`. -/
structure SymbolTable where
  sym2id_ : List (Str × Int)
  id2sym_ : List (Int × Str)
deriving DecidableEq, Repr

/-- A freshly constructed object: both maps empty. -/
def SymbolTable.empty : SymbolTable := ⟨[], []⟩

/-! ## The input stream -/

/-- A `std::istream`: the bytes not yet read and the state bits. -/
structure IStream where
  buf : List Nat
  eofbit : Bool
  failbit : Bool
deriving DecidableEq, Repr

/-- A stream over the given bytes, in the good state. -/
def IStream.ofBytes (b : List Nat) : IStream := ⟨b, false, false⟩

/-- The test `is.good()`: no state bit is set. -/
def IStream.good (is : IStream) : Bool := !is.eofbit && !is.failbit

/-- The `istream::sentry` of a formatted input function (with `skipws`, the default).
On a stream that is not good it sets `failbit`. Otherwise it skips whitespace; reaching the
end of the input while skipping sets `eofbit` and `failbit`. The boolean says whether
the extraction may proceed. -/
def sentry (is : IStream) : IStream × Bool :=
  if is.good then
    match is.buf.dropWhile isspace with
    | [] => ({ buf := [], eofbit := true, failbit := true }, false)
    | c :: cs => ({ is with buf := c :: cs }, true)
  else ({ is with failbit := true }, false)

/-- The extraction `is >> sym` for a `std::string`: after the sentry, the bytes up to
the next whitespace or the end of the input replace `sym`; reaching the end sets `eofbit`,
extracting nothing sets `failbit`. When the sentry fails `sym` keeps its value. -/
def extractString (is : IStream) (sym : Str) : IStream × Str :=
  match sentry is with
  | (is1, false) => (is1, sym)
  | (is1, true) =>
    let tok := is1.buf.takeWhile (fun c => !isspace c)
    let rest := is1.buf.dropWhile (fun c => !isspace c)
    ({ buf := rest, eofbit := is1.eofbit || rest.isEmpty,
       failbit := is1.failbit || tok.isEmpty }, tok)

/-- The value of a run of decimal digits, most significant first. -/
def digitsValue (ds : List Nat) : Nat := ds.foldl (fun a c => 10 * a + (c - 48)) 0

/-- The input after an optional sign `-` or `+`. -/
def skipSign (b : List Nat) : List Nat :=
  if b.head? == some 45 || b.head? == some 43 then b.tail else b

/-- The extraction `is >> id` for an `int32_t` (`num_get` with the conversion `%d`, then
the range check of `operator>>(int&)`): after the sentry, an optional sign `+` or `-` and
the longest run of decimal digits are consumed. Reaching the end of the input while doing
so sets `eofbit`. No digit at all sets `failbit` and stores 0; a value outside the 32-bit
range sets `failbit` and stores the nearest bound. When the sentry fails `id` keeps its
value. -/
def extractInt (is : IStream) (id : Int) : IStream × Int :=
  match sentry is with
  | (is1, false) => (is1, id)
  | (is1, true) =>
    let neg := is1.buf.head? == some 45
    let b1 := skipSign is1.buf
    let ds := b1.takeWhile isdigit
    let rest := b1.dropWhile isdigit
    let v : Int := if neg then -(digitsValue ds : Int) else (digitsValue ds : Int)
    let eof := is1.eofbit || rest.isEmpty
    if ds.isEmpty then ({ buf := rest, eofbit := eof, failbit := true }, 0)
    else if v < -2147483648 then ({ buf := rest, eofbit := eof, failbit := true }, -2147483648)
    else if v > 2147483647 then ({ buf := rest, eofbit := eof, failbit := true }, 2147483647)
    else ({ buf := rest, eofbit := eof, failbit := is1.failbit }, v)

/-! ## Construction -/

/-- The assertions of `Init`, and running out of the fuel of the loop (which `Init`
never does, see `Init_ne_outOfFuel`). -/
inductive InitError where
  | emptySymbol      -- `assert(!sym.empty())`
  | duplicateSymbol  -- `assert(sym2id_.count(sym) == 0)`
  | duplicateId      -- `assert(id2sym_.count(id) == 0)`
  | notEof           -- `assert(is.eof())`
  | outOfFuel
deriving DecidableEq, Repr

/-- The outcome of `Init`: the table, or the assertion that failed. -/
inductive InitResult where
  | ok (t : SymbolTable)
  | error (e : InitError)
deriving DecidableEq, Repr

/-- The first statement of the loop body: a symbol of at least 3 bytes that starts with
`0xe2 0x96 0x81` has these three bytes replaced by one space (`sym.replace(0, 3, " ")`). -/
def normalize (sym : Str) : Str :=
  if sym.length ≥ 3 then
    if sym.getD 0 0 == 0xe2 && sym.getD 1 0 == 0x96 && sym.getD 2 0 == 0x81 then
      [32] ++ sym.drop 3
    else sym
  else sym

/-- The body of the loop of `Init` for one extracted record: normalization, the three
assertions in their order, the two insertions. -/
def insertRecord (t : SymbolTable) (sym : Str) (id : Int) : InitResult :=
  let sym := normalize sym
  if sym.isEmpty then .error .emptySymbol
  else if mapCount t.sym2id_ sym ≠ 0 then .error .duplicateSymbol
  else if mapCount t.id2sym_ id ≠ 0 then .error .duplicateId
  else .ok { sym2id_ := mapInsert strLess t.sym2id_ sym id,
             id2sym_ := mapInsert intLess t.id2sym_ id sym }

/-- The loop `while (is >> sym >> id) { ... }` followed by `assert(is.eof())`. The
condition is true when `failbit` is clear after both extractions. The first argument
bounds the number of iterations. -/
def InitLoop : Nat → IStream → Str → Int → SymbolTable → InitResult
  | 0, _, _, _, _ => .error .outOfFuel
  | fuel + 1, is, sym, id, t =>
    let (is1, sym1) := extractString is sym
    let (is2, id1) := extractInt is1 id
    if is2.failbit then
      if is2.eofbit then .ok t else .error .notEof
    else
      match insertRecord t sym1 id1 with
      | .error e => .error e
      | .ok t1 => InitLoop fuel is2 (normalize sym1) id1 t1

/-- The function `SymbolTable::Init(std::istream &is)` on a fresh table. Every iteration
that continues consumes at least one byte, so one more iteration than there are bytes
is enough. -/
def Init (is : IStream) : InitResult :=
  InitLoop (is.buf.length + 1) is [] 0 SymbolTable.empty

/-- Construction from the bytes of an input (a stream in the good state). -/
def fromBytes (input : List Nat) : InitResult := Init (IStream.ofBytes input)

/-! ## Serialization and queries -/

/-- The decimal digits of a natural number, most significant first; the first argument
bounds the number of digits. -/
def natToDecAux : Nat → Nat → List Nat → List Nat
  | 0, _, acc => acc
  | fuel + 1, n, acc =>
    if n < 10 then (48 + n) :: acc
    else natToDecAux fuel (n / 10) ((48 + n % 10) :: acc)

/-- The output of `os << n` for an `int32_t`: a `-` for a negative number, then
the decimal digits. -/
def intToDec (i : Int) : List Nat :=
  if i < 0 then 45 :: natToDecAux (i.natAbs + 1) i.natAbs []
  else natToDecAux (i.natAbs + 1) i.natAbs []

/-- The function `SymbolTable::ToString`: for each entry of `sym2id_` in iteration order,
`p.first`, the separator `' '`, `p.second` and `"\n"`. -/
def ToString (t : SymbolTable) : List Nat :=
  t.sym2id_.flatMap (fun p => p.1 ++ [32] ++ intToDec p.2 ++ [10])

/-- The operator `operator[](int32_t id)`: `id2sym_.at(id)`. -/
def symbolOf (t : SymbolTable) (id : Int) : Option Str := mapAt t.id2sym_ id

/-- The operator `operator[](const std::string &sym)`: `sym2id_.at(sym)`. -/
def idOf (t : SymbolTable) (sym : Str) : Option Int := mapAt t.sym2id_ sym

/-- The overload `contains(int32_t id)`: `id2sym_.count(id) != 0`. -/
def containsId (t : SymbolTable) (id : Int) : Bool := mapCount t.id2sym_ id != 0

/-- The overload `contains(const std::string &sym)`: `sym2id_.count(sym) != 0`. -/
def containsSym (t : SymbolTable) (sym : Str) : Bool := mapCount t.sym2id_ sym != 0

/-! ## Invariants -/

/-- What the proofs need of a key order: it is a strict total order. -/
structure StrictTotal {κ : Type} (lt : κ → κ → Bool) : Prop where
  irrefl : ∀ a, lt a a = false
  trans : ∀ a b c, lt a b = true → lt b c = true → lt a c = true
  tricho : ∀ a b, lt a b = false → lt b a = false → a = b

/-- A map whose pairs are in strictly ascending key order. -/
def Sorted {κ ν : Type} (lt : κ → κ → Bool) (m : List (κ × ν)) : Prop :=
  m.Pairwise (fun p q => lt p.1 q.1 = true)

/-- The range of an `int32_t`. -/
def inInt32 (i : Int) : Prop := -2147483648 ≤ i ∧ i ≤ 2147483647

/-- The invariant of a table: both maps are in ascending key order (so their keys are
unique), each is the inverse of the other, and they have the same size. -/
structure SymbolTable.WF (t : SymbolTable) : Prop where
  sortedSym : Sorted strLess t.sym2id_
  sortedId : Sorted intLess t.id2sym_
  inverse : ∀ s i, (s, i) ∈ t.sym2id_ ↔ (i, s) ∈ t.id2sym_
  sameSize : t.sym2id_.length = t.id2sym_.length

/-! ## Inputs made of records -/

/-- One record of an input text, split into its parts: the whitespace before the token,
the token, the whitespace between the token and the integer, and the integer as an
optional sign followed by decimal digits. -/
structure Record where
  lead : List Nat
  tok : Str
  gap : List Nat
  sign : List Nat
  digits : List Nat
deriving DecidableEq, Repr

/-- The integer a record denotes. -/
def Record.id (r : Record) : Int :=
  if r.sign = [45] then -(digitsValue r.digits : Int) else (digitsValue r.digits : Int)

/-- The text of a record. -/
def Record.text (r : Record) : List Nat := r.lead ++ (r.tok ++ (r.gap ++ (r.sign ++ r.digits)))

/-- A record is valid when `lead` and `gap` are whitespace, `gap` is not empty, the token
is a non-empty run of bytes that are not whitespace, the sign is empty, `+` or `-`, the
digits are a non-empty run of decimal digits, and the integer is in the 32-bit range. -/
def Record.valid (r : Record) : Bool :=
  r.lead.all isspace && !r.tok.isEmpty && r.tok.all (fun c => !isspace c) &&
  !r.gap.isEmpty && r.gap.all isspace &&
  (r.sign == [] || r.sign == [43] || r.sign == [45]) &&
  !r.digits.isEmpty && r.digits.all isdigit &&
  decide (-2147483648 ≤ r.id) && decide (r.id ≤ 2147483647)

/-- The text of a sequence of records. -/
def recordsText : List Record → List Nat
  | [] => []
  | r :: rs => r.text ++ recordsText rs

/-- An input that is a sequence of whitespace-separated records ending at clean end of
input: valid records, whitespace before every record but possibly the first, and nothing
but whitespace (possibly none) after the last. -/
def WellFormed (recs : List Record) (trail : List Nat) : Bool :=
  recs.all Record.valid && recs.tail.all (fun r => !r.lead.isEmpty) && trail.all isspace

/-- The loop body run on a sequence of extracted records, in order, stopping at the first
failing assertion. -/
def insertAll : SymbolTable → List (Str × Int) → InitResult
  | t, [] => .ok t
  | t, (sym, id) :: rs =>
    match insertRecord t sym id with
    | .error e => .error e
    | .ok t1 => insertAll t1 rs

/-- The pairs (token, integer) of a sequence of records. -/
def pairsOf (recs : List Record) : List (Str × Int) := recs.map (fun r => (r.tok, r.id))

/-- A symbol token: a non-empty run of bytes that are not whitespace. -/
def isToken (tok : List Nat) : Bool := !tok.isEmpty && tok.all (fun c => !isspace c)

/-- A separator: a non-empty run of whitespace. -/
def isGap (gap : List Nat) : Bool := !gap.isEmpty && gap.all isspace

/-- The start of a text that is not a signed decimal integer: an optional sign `+` or `-`
followed by a byte `c` that is not a digit (without a sign, `c` is not whitespace and not
a sign itself). -/
def notIntegerStart (sign : List Nat) (c : Nat) : Bool :=
  (sign == [] || sign == [43] || sign == [45]) && !isdigit c &&
  (sign != [] || (!isspace c && c != 43 && c != 45))

/-! ## The scenario of the specification -/

/-- The input of the scenario: three records, the second with the BPE marker. -/
def scenarioInput : List Nat := bytes "<unk> 0\n▁hello 1\nworld 2\n"

/-- The table the scenario gives. -/
def scenarioTable : SymbolTable :=
  { sym2id_ := [(bytes " hello", 1), (bytes "<unk>", 0), (bytes "world", 2)],
    id2sym_ := [(0, bytes "<unk>"), (1, bytes " hello"), (2, bytes "world")] }

/-- The records of the scenario input. -/
def scenarioRecords : List Record :=
  [⟨[], bytes "<unk>", bytes " ", [], bytes "0"⟩,
   ⟨bytes "\n", bytes "▁hello", bytes " ", [], bytes "1"⟩,
   ⟨bytes "\n", bytes "world", bytes " ", [], bytes "2"⟩]

/-- The stored symbols of a sequence of pairs. -/
def symsOf (pairs : List (Str × Int)) : List Str := pairs.map (fun p => normalize p.1)

/-- The ids of a sequence of pairs. -/
def idsOf (pairs : List (Str × Int)) : List Int := pairs.map Prod.snd

/-- Every stored pair comes from a token: the symbol is the normalization of a non-empty
run of bytes that are not whitespace, and the id is in the 32-bit range. -/
def SymbolTable.FromTokens (t : SymbolTable) : Prop :=
  ∀ p ∈ t.sym2id_, (∃ tok : Str, tok ≠ [] ∧ (∀ c ∈ tok, isspace c = false) ∧
    p.1 = normalize tok) ∧ inInt32 p.2

/-! ## Markers, tokens and the lines of the serialization -/

/-- The UTF-8 encoding of U+2581, the three bytes the loop body looks for. -/
def marker : Str := [0xE2, 0x96, 0x81]

/-- The whitespace-separated tokens of an input: its maximal runs of bytes that are not
whitespace. The second argument is the token being read, in reverse. -/
def tokensGo : List Nat → List Nat → List (List Nat)
  | [], cur => if cur.isEmpty then [] else [cur.reverse]
  | c :: cs, cur =>
    if isspace c then
      if cur.isEmpty then tokensGo cs [] else cur.reverse :: tokensGo cs []
    else tokensGo cs (c :: cur)

/-- The whitespace-separated tokens of an input. -/
def tokens (input : List Nat) : List (List Nat) := tokensGo input []

/-- The line `ToString` writes for one entry, as a record: the symbol, one space, the sign
and the digits of the id. The whitespace before it is given. -/
def entryRecord (lead : List Nat) (p : Str × Int) : Record :=
  { lead := lead, tok := p.1, gap := [32],
    sign := if p.2 < 0 then [45] else [],
    digits := natToDecAux (p.2.natAbs + 1) p.2.natAbs [] }

/-- The lines `ToString` writes for a sequence of entries, as records: the newline that ends
a line is the whitespace before the next record. -/
def entryRecords : List (Str × Int) → List Record
  | [] => []
  | p :: ps => entryRecord [] p :: ps.map (entryRecord [10])

/-! ## Lemmas: the orders and the maps -/

theorem strLess_iff_lex : ∀ a b : Str, strLess a b = true ↔ List.Lex (· < ·) a b
  | [], [] => by simp [strLess, List.Lex.not_nil_right]
  | [], _ :: _ => by simp [strLess, List.Lex.nil]
  | _ :: _, [] => by simp [strLess, List.Lex.not_nil_right]
  | a :: as, b :: bs => by
    have ih := strLess_iff_lex as bs
    constructor
    · intro h
      simp only [strLess, Bool.or_eq_true, decide_eq_true_eq, Bool.and_eq_true, beq_iff_eq] at h
      rcases h with h | ⟨rfl, h⟩
      · exact List.Lex.rel h
      · exact List.Lex.cons (ih.1 h)
    · intro h
      simp only [strLess, Bool.or_eq_true, decide_eq_true_eq, Bool.and_eq_true, beq_iff_eq]
      cases h with
      | cons h => exact Or.inr ⟨rfl, ih.2 h⟩
      | rel h => exact Or.inl h

theorem strLess_iff_lt (a b : Str) : strLess a b = true ↔ a < b :=
  strLess_iff_lex a b

theorem strLess_strictTotal : StrictTotal strLess where
  irrefl a := by
    cases h : strLess a a
    · rfl
    · exact absurd ((strLess_iff_lt a a).1 h) (lt_irrefl a)
  trans a b c hab hbc :=
    (strLess_iff_lt a c).2 (lt_trans ((strLess_iff_lt a b).1 hab) ((strLess_iff_lt b c).1 hbc))
  tricho a b hab hba := by
    rcases lt_trichotomy a b with h | h | h
    · rw [(strLess_iff_lt a b).2 h] at hab; cases hab
    · exact h
    · rw [(strLess_iff_lt b a).2 h] at hba; cases hba

theorem intLess_strictTotal : StrictTotal intLess where
  irrefl a := by simp [intLess]
  trans a b c hab hbc := by
    simp only [intLess, decide_eq_true_eq] at *
    omega
  tricho a b hab hba := by
    simp only [intLess, decide_eq_false_iff_not] at *
    omega

theorem mapCount_eq_zero_iff {κ ν : Type} [DecidableEq κ] (m : List (κ × ν)) (k : κ) :
    mapCount m k = 0 ↔ k ∉ m.map Prod.fst := by
  induction m with
  | nil => simp [mapCount]
  | cons p m ih =>
    obtain ⟨k', v'⟩ := p
    by_cases h : k' = k
    · simp [mapCount, h]
    · have h' : ¬ k = k' := fun e => h e.symm
      simp [mapCount, h, h', ih]

theorem mapCount_ne_zero_iff {κ ν : Type} [DecidableEq κ] (m : List (κ × ν)) (k : κ) :
    mapCount m k ≠ 0 ↔ k ∈ m.map Prod.fst := by
  rw [Ne, mapCount_eq_zero_iff, not_not]

theorem mapAt_eq_none_iff {κ ν : Type} [DecidableEq κ] (m : List (κ × ν)) (k : κ) :
    mapAt m k = none ↔ k ∉ m.map Prod.fst := by
  induction m with
  | nil => simp [mapAt]
  | cons p m ih =>
    obtain ⟨k', v'⟩ := p
    by_cases h : k' = k
    · simp [mapAt, h]
    · have h' : ¬ k = k' := fun e => h e.symm
      simp [mapAt, h, h', ih]

theorem mapAt_mem {κ ν : Type} [DecidableEq κ] (m : List (κ × ν)) (k : κ) (v : ν) (h : mapAt m k = some v) :
    (k, v) ∈ m := by
  induction m with
  | nil => simp [mapAt] at h
  | cons p m ih =>
    obtain ⟨k', v'⟩ := p
    by_cases hk : k' = k
    · simp only [mapAt, hk, if_true, Option.some.injEq] at h
      simp [hk, h]
    · simp only [mapAt, hk, if_false] at h
      exact List.mem_cons_of_mem _ (ih h)

theorem mapAt_of_mem {κ ν : Type} [DecidableEq κ] (m : List (κ × ν)) (k : κ) (v : ν) (hnd : (m.map Prod.fst).Nodup)
    (h : (k, v) ∈ m) : mapAt m k = some v := by
  induction m with
  | nil => simp at h
  | cons p m ih =>
    obtain ⟨k', v'⟩ := p
    simp only [List.map_cons, List.nodup_cons] at hnd
    rcases List.mem_cons.1 h with h | h
    · cases h
      simp [mapAt]
    · have hk : k' ≠ k := by
        rintro rfl
        exact hnd.1 (List.mem_map.2 ⟨(k', v), h, rfl⟩)
      simp only [mapAt, hk, if_false]
      exact ih hnd.2 h

theorem Sorted.nodup_keys {κ ν : Type} {lt : κ → κ → Bool} (hlt : StrictTotal lt) {m : List (κ × ν)}
    (h : Sorted lt m) : (m.map Prod.fst).Nodup := by
  unfold Sorted at h
  rw [List.Nodup, List.pairwise_map]
  refine h.imp ?_
  intro p q hpq e
  rw [e, hlt.irrefl] at hpq
  cases hpq

theorem mem_mapInsert_imp {κ ν : Type} (lt : κ → κ → Bool) (m : List (κ × ν)) (k : κ) (v : ν)
    (p : κ × ν) (h : p ∈ mapInsert lt m k v) : p = (k, v) ∨ p ∈ m := by
  induction m with
  | nil => simpa [mapInsert] using h
  | cons q m ih =>
    obtain ⟨k', v'⟩ := q
    simp only [mapInsert] at h
    split_ifs at h with h1 h2
    · simpa using h
    · rcases List.mem_cons.1 h with h | h
      · exact Or.inr (h ▸ List.mem_cons_self _ _)
      · rcases ih h with h | h
        · exact Or.inl h
        · exact Or.inr (List.mem_cons_of_mem _ h)
    · exact Or.inr h

theorem mem_mapInsert_of_mem {κ ν : Type} (lt : κ → κ → Bool) (m : List (κ × ν)) (k : κ) (v : ν)
    (p : κ × ν) (h : p ∈ m) : p ∈ mapInsert lt m k v := by
  induction m with
  | nil => simp at h
  | cons q m ih =>
    obtain ⟨k', v'⟩ := q
    simp only [mapInsert]
    split_ifs with h1 h2
    · exact List.mem_cons_of_mem _ h
    · rcases List.mem_cons.1 h with h | h
      · exact h ▸ List.mem_cons_self _ _
      · exact List.mem_cons_of_mem _ (ih h)
    · exact h

theorem mem_mapInsert_self {κ ν : Type} {lt : κ → κ → Bool} (hlt : StrictTotal lt) (m : List (κ × ν))
    (k : κ) (v : ν) (hk : k ∉ m.map Prod.fst) : (k, v) ∈ mapInsert lt m k v := by
  induction m with
  | nil => simp [mapInsert]
  | cons q m ih =>
    obtain ⟨k', v'⟩ := q
    simp only [List.map_cons, List.mem_cons, not_or] at hk
    simp only [mapInsert]
    split_ifs with h1 h2
    · exact List.mem_cons_self _ _
    · exact List.mem_cons_of_mem _ (ih hk.2)
    · exact absurd (hlt.tricho k k' (by simpa using h1) (by simpa using h2)) hk.1

theorem mem_mapInsert {κ ν : Type} {lt : κ → κ → Bool} (hlt : StrictTotal lt) (m : List (κ × ν))
    (k : κ) (v : ν) (hk : k ∉ m.map Prod.fst) (p : κ × ν) :
    p ∈ mapInsert lt m k v ↔ p = (k, v) ∨ p ∈ m := by
  constructor
  · exact mem_mapInsert_imp lt m k v p
  · rintro (rfl | h)
    · exact mem_mapInsert_self hlt m k v hk
    · exact mem_mapInsert_of_mem lt m k v p h

theorem length_mapInsert {κ ν : Type} {lt : κ → κ → Bool} (hlt : StrictTotal lt) (m : List (κ × ν))
    (k : κ) (v : ν) (hk : k ∉ m.map Prod.fst) :
    (mapInsert lt m k v).length = m.length + 1 := by
  induction m with
  | nil => simp [mapInsert]
  | cons q m ih =>
    obtain ⟨k', v'⟩ := q
    simp only [List.map_cons, List.mem_cons, not_or] at hk
    simp only [mapInsert]
    split_ifs with h1 h2
    · simp
    · simp [ih hk.2]
    · exact absurd (hlt.tricho k k' (by simpa using h1) (by simpa using h2)) hk.1

theorem sorted_mapInsert {κ ν : Type} {lt : κ → κ → Bool} (hlt : StrictTotal lt) (m : List (κ × ν))
    (k : κ) (v : ν) (hs : Sorted lt m) : Sorted lt (mapInsert lt m k v) := by
  induction m with
  | nil => simp [mapInsert, Sorted]
  | cons q m ih =>
    obtain ⟨k', v'⟩ := q
    unfold Sorted at hs ih ⊢
    rw [List.pairwise_cons] at hs
    simp only [mapInsert]
    split_ifs with h1 h2
    · refine List.Pairwise.cons ?_ (List.Pairwise.cons hs.1 hs.2)
      intro r hr
      rcases List.mem_cons.1 hr with rfl | hr
      · exact h1
      · exact hlt.trans _ _ _ h1 (hs.1 r hr)
    · refine List.Pairwise.cons ?_ (ih hs.2)
      intro r hr
      rcases mem_mapInsert_imp lt m k v r hr with rfl | hr
      · exact h2
      · exact hs.1 r hr
    · exact List.Pairwise.cons hs.1 hs.2

theorem keys_mapInsert {κ ν : Type} {lt : κ → κ → Bool} (hlt : StrictTotal lt) (m : List (κ × ν))
    (k : κ) (v : ν) (hk : k ∉ m.map Prod.fst) (x : κ) :
    x ∈ (mapInsert lt m k v).map Prod.fst ↔ x = k ∨ x ∈ m.map Prod.fst := by
  simp only [List.mem_map, mem_mapInsert hlt m k v hk]
  constructor
  · rintro ⟨p, rfl | hp, rfl⟩
    · exact Or.inl rfl
    · exact Or.inr ⟨p, hp, rfl⟩
  · rintro (rfl | ⟨p, hp, rfl⟩)
    · exact ⟨(x, v), Or.inl rfl, rfl⟩
    · exact ⟨p, Or.inr hp, rfl⟩

/-! ## Lemmas: the stream -/

theorem sentry_of_not_good (is : IStream) (h : is.good = false) :
    sentry is = ({ is with failbit := true }, false) := by
  simp [sentry, h]

theorem sentry_of_good_nil (is : IStream) (h : is.good = true)
    (hb : is.buf.dropWhile isspace = []) :
    sentry is = ({ buf := [], eofbit := true, failbit := true }, false) := by
  simp [sentry, h, hb]

theorem sentry_of_good_cons (is : IStream) (h : is.good = true) (c : Nat) (cs : List Nat)
    (hb : is.buf.dropWhile isspace = c :: cs) :
    sentry is = ({ is with buf := c :: cs }, true) := by
  simp [sentry, h, hb]

theorem sentry_false_failbit (is is1 : IStream) (h : sentry is = (is1, false)) :
    is1.failbit = true := by
  unfold sentry at h
  split at h
  · split at h
    · cases h; rfl
    · cases h
  · cases h; rfl

theorem sentry_true (is is1 : IStream) (h : sentry is = (is1, true)) :
    is.good = true ∧ is1.eofbit = false ∧ is1.failbit = false ∧
      is1.buf = is.buf.dropWhile isspace ∧ is1.buf ≠ [] := by
  unfold sentry at h
  split at h
  · rename_i hg
    split at h
    · cases h
    · rename_i c cs hb
      cases h
      simp only [IStream.good, Bool.and_eq_true, Bool.not_eq_true'] at hg
      simp [hg.1, hg.2, hb, IStream.good]
  · cases h

theorem extractInt_failbit_of_failbit (is : IStream) (id : Int) (h : is.failbit = true) :
    (extractInt is id).1.failbit = true := by
  have hg : is.good = false := by simp [IStream.good, h]
  simp [extractInt, sentry_of_not_good is hg]

theorem extractInt_failbit_of_eofbit (is : IStream) (id : Int) (h : is.eofbit = true) :
    (extractInt is id).1.failbit = true := by
  have hg : is.good = false := by simp [IStream.good, h]
  simp [extractInt, sentry_of_not_good is hg]

theorem length_dropWhile_le (p : Nat → Bool) (l : List Nat) :
    (l.dropWhile p).length ≤ l.length := by
  induction l with
  | nil => simp
  | cons a l ih =>
    simp only [List.dropWhile_cons]
    split
    · exact Nat.le_succ_of_le ih
    · exact Nat.le_refl _

theorem extractInt_buf_length (is : IStream) (id : Int) :
    (extractInt is id).1.buf.length ≤ is.buf.length := by
  unfold extractInt
  rcases hs : sentry is with ⟨is1, b⟩
  cases b
  · unfold sentry at hs
    split at hs
    · split at hs
      · cases hs; simp
      · cases hs
    · cases hs; simp
  · obtain ⟨-, -, -, hb, -⟩ := sentry_true is is1 hs
    have h1 : is1.buf.length ≤ is.buf.length := hb ▸ length_dropWhile_le _ _
    have h2 : (skipSign is1.buf).length ≤ is1.buf.length := by
      unfold skipSign
      split
      · simp
      · exact Nat.le_refl _
    have h3 := length_dropWhile_le isdigit (skipSign is1.buf)
    simp only
    split_ifs <;> simp only <;> omega

theorem extractInt_ok_range (is : IStream) (id : Int)
    (h : (extractInt is id).1.failbit = false) : inInt32 (extractInt is id).2 := by
  unfold extractInt at h ⊢
  rcases hs : sentry is with ⟨is1, b⟩
  rw [hs] at h
  cases b
  · rw [sentry_false_failbit is is1 hs] at h
    cases h
  · simp only at h ⊢
    split_ifs at h ⊢ <;> exact ⟨by omega, by omega⟩

/-- What one evaluation of the loop condition `is >> sym >> id` gives when it is true:
a non-empty symbol without whitespace, an id in the 32-bit range, and a shorter input. -/
theorem extract_ok (is : IStream) (sym : Str) (id : Int)
    (h : (extractInt (extractString is sym).1 id).1.failbit = false) :
    (extractString is sym).2 ≠ [] ∧
    (∀ c ∈ (extractString is sym).2, isspace c = false) ∧
    inInt32 (extractInt (extractString is sym).1 id).2 ∧
    (extractInt (extractString is sym).1 id).1.buf.length < is.buf.length := by
  have hlen := extractInt_buf_length (extractString is sym).1 id
  have hr := extractInt_ok_range _ _ h
  revert h hlen hr
  unfold extractString
  rcases hs : sentry is with ⟨is1, b⟩
  cases b
  · intro h
    rw [extractInt_failbit_of_failbit _ _ (sentry_false_failbit is is1 hs)] at h
    cases h
  · obtain ⟨-, -, -, hb, hne⟩ := sentry_true is is1 hs
    have hle : is1.buf.length ≤ is.buf.length := hb ▸ length_dropWhile_le _ _
    obtain ⟨c, cs, hcs⟩ := List.exists_cons_of_ne_nil hne
    have hc : isspace c = false := by
      have := List.head_dropWhile_not isspace is.buf (by rw [← hb]; exact hne)
      simp only [← hb, hcs, List.head_cons] at this
      simpa using this
    intro h hlen hr
    simp only at h hlen hr ⊢
    refine ⟨?_, ?_, hr, ?_⟩
    · simp [hcs, List.takeWhile_cons, hc]
    · intro x hx
      have := List.mem_takeWhile_imp hx
      simpa using this
    · have h4 : (List.dropWhile (fun c => !isspace c) is1.buf).length < is1.buf.length := by
        rw [hcs]
        simp only [List.dropWhile_cons, hc, Bool.not_false, if_true, List.length_cons]
        exact Nat.lt_succ_of_le (length_dropWhile_le _ _)
      omega

/-! ## Lemmas: the invariant and the loop -/

theorem WF_empty : SymbolTable.empty.WF where
  sortedSym := List.Pairwise.nil
  sortedId := List.Pairwise.nil
  inverse := by simp [SymbolTable.empty]
  sameSize := rfl

/-- What a passing run of the loop body says: the three assertions held and the pair was
inserted into both maps. -/
theorem insertRecord_ok (t t' : SymbolTable) (sym : Str) (id : Int)
    (h : insertRecord t sym id = .ok t') :
    normalize sym ≠ [] ∧ normalize sym ∉ t.sym2id_.map Prod.fst ∧
    id ∉ t.id2sym_.map Prod.fst ∧
    t' = { sym2id_ := mapInsert strLess t.sym2id_ (normalize sym) id,
           id2sym_ := mapInsert intLess t.id2sym_ id (normalize sym) } := by
  unfold insertRecord at h
  simp only at h
  split_ifs at h with h1 h2 h3
  refine ⟨?_, ?_, ?_, ?_⟩
  · simpa using h1
  · rw [← mapCount_eq_zero_iff]
    simpa using h2
  · rw [← mapCount_eq_zero_iff]
    simpa using h3
  · cases h
    rfl

theorem insertRecord_WF (t t' : SymbolTable) (sym : Str) (id : Int) (ht : t.WF)
    (h : insertRecord t sym id = .ok t') : t'.WF := by
  obtain ⟨-, hs, hi, rfl⟩ := insertRecord_ok t t' sym id h
  refine ⟨sorted_mapInsert strLess_strictTotal _ _ _ ht.sortedSym,
    sorted_mapInsert intLess_strictTotal _ _ _ ht.sortedId, ?_, ?_⟩
  · intro s i
    simp only [mem_mapInsert strLess_strictTotal _ _ _ hs,
      mem_mapInsert intLess_strictTotal _ _ _ hi, Prod.mk.injEq, ht.inverse s i]
    tauto
  · simp only [length_mapInsert strLess_strictTotal _ _ _ hs,
      length_mapInsert intLess_strictTotal _ _ _ hi, ht.sameSize]

/-- A property of the table that every passing run of the loop body preserves holds of
the table the loop returns. -/
theorem InitLoop_inv (P : SymbolTable → Prop)
    (hstep : ∀ t sym id t', P t → sym ≠ [] → (∀ c ∈ sym, isspace c = false) → inInt32 id →
      insertRecord t sym id = .ok t' → P t') :
    ∀ (fuel : Nat) (is : IStream) (sym : Str) (id : Int) (t t' : SymbolTable),
      P t → InitLoop fuel is sym id t = .ok t' → P t' := by
  intro fuel
  induction fuel with
  | zero => intro is sym id t t' _ h; simp [InitLoop] at h
  | succ fuel ih =>
    intro is sym id t t' hP h
    unfold InitLoop at h
    simp only at h
    split_ifs at h with h1 h2
    · cases h; exact hP
    · have h1' : (extractInt (extractString is sym).1 id).1.failbit = false := by
        simpa using h1
      obtain ⟨hne, hsp, hr, -⟩ := extract_ok is sym id h1'
      split at h
      · cases h
      · rename_i t1 ht1
        exact ih _ _ _ _ _ (hstep _ _ _ _ hP hne hsp hr ht1) h

theorem InitLoop_ne_outOfFuel :
    ∀ (fuel : Nat) (is : IStream) (sym : Str) (id : Int) (t : SymbolTable),
      is.buf.length < fuel → InitLoop fuel is sym id t ≠ .error .outOfFuel := by
  intro fuel
  induction fuel with
  | zero => intro is sym id t h; omega
  | succ fuel ih =>
    intro is sym id t hlt
    unfold InitLoop
    simp only
    split_ifs with h1 h2
    · simp
    · simp
    · have h1' : (extractInt (extractString is sym).1 id).1.failbit = false := by
        simpa using h1
      obtain ⟨-, -, -, hlen⟩ := extract_ok is sym id h1'
      split
      · rename_i e he
        intro hc
        cases hc
        unfold insertRecord at he
        simp only at he
        split_ifs at he <;> cases he
      · exact ih _ _ _ _ (by omega)

/-- The loop of `Init` always ends: the fuel never runs out. -/
theorem Init_ne_outOfFuel (is : IStream) : Init is ≠ .error .outOfFuel :=
  InitLoop_ne_outOfFuel _ _ _ _ _ (Nat.lt_succ_self _)

theorem Init_WF (is : IStream) (t : SymbolTable) (h : Init is = .ok t) : t.WF :=
  InitLoop_inv SymbolTable.WF (fun t sym id t' ht _ _ _ h => insertRecord_WF t t' sym id ht h)
    _ _ _ _ _ _ WF_empty h

/-! ## Lemmas: inputs made of records -/

theorem takeWhile_append_stop (p : Nat → Bool) (l r : List Nat) (hl : ∀ x ∈ l, p x = true)
    (hr : ∀ c ∈ r.head?, p c = false) : (l ++ r).takeWhile p = l := by
  induction l with
  | nil =>
    cases r with
    | nil => rfl
    | cons c cs => simp [List.takeWhile_cons, hr c (by simp)]
  | cons a l ih =>
    have ha : p a = true := hl a (List.mem_cons_self _ _)
    simp only [List.cons_append, List.takeWhile_cons, ha, if_true]
    rw [ih (fun x hx => hl x (List.mem_cons_of_mem _ hx))]

theorem dropWhile_append_stop (p : Nat → Bool) (l r : List Nat) (hl : ∀ x ∈ l, p x = true)
    (hr : ∀ c ∈ r.head?, p c = false) : (l ++ r).dropWhile p = r := by
  induction l with
  | nil =>
    cases r with
    | nil => rfl
    | cons c cs => simp [List.dropWhile_cons, hr c (by simp)]
  | cons a l ih =>
    have ha : p a = true := hl a (List.mem_cons_self _ _)
    simp only [List.cons_append, List.dropWhile_cons, ha, if_true]
    exact ih (fun x hx => hl x (List.mem_cons_of_mem _ hx))

theorem isdigit_not_isspace (c : Nat) (h : isdigit c = true) : isspace c = false := by
  simp only [isdigit, Bool.and_eq_true, decide_eq_true_eq] at h
  simp only [isspace, Bool.or_eq_false_iff, beq_eq_false_iff_ne, Bool.and_eq_false_iff,
    decide_eq_false_iff_not]
  omega

theorem isspace_not_isdigit (c : Nat) (h : isspace c = true) : isdigit c = false := by
  cases hd : isdigit c
  · rfl
  · rw [isdigit_not_isspace c hd] at h; cases h

/-- The extraction `is >> sym` on a good stream whose input is whitespace, a token, and
a rest that is empty or starts with whitespace: the token is extracted, and `eofbit` is
set exactly when the rest is empty. -/
theorem extractString_token (lead tok rest : List Nat) (sym : Str)
    (hlead : ∀ x ∈ lead, isspace x = true) (hne : tok ≠ [])
    (htok : ∀ x ∈ tok, isspace x = false) (hrest : ∀ c ∈ rest.head?, isspace c = true) :
    extractString ⟨lead ++ (tok ++ rest), false, false⟩ sym =
      (⟨rest, rest.isEmpty, false⟩, tok) := by
  obtain ⟨c, cs, rfl⟩ := List.exists_cons_of_ne_nil hne
  have h1 : (lead ++ (c :: cs ++ rest)).dropWhile isspace = c :: (cs ++ rest) :=
    dropWhile_append_stop isspace lead _ hlead
      (by simpa using htok c (List.mem_cons_self _ _))
  have h2 : (c :: cs ++ rest).takeWhile (fun x => !isspace x) = c :: cs :=
    takeWhile_append_stop _ _ _ (fun x hx => by simp [htok x hx])
      (fun x hx => by simp [hrest x hx])
  have h3 : (c :: cs ++ rest).dropWhile (fun x => !isspace x) = rest :=
    dropWhile_append_stop _ _ _ (fun x hx => by simp [htok x hx])
      (fun x hx => by simp [hrest x hx])
  have hs : sentry ⟨lead ++ (c :: cs ++ rest), false, false⟩ =
      (⟨c :: (cs ++ rest), false, false⟩, true) :=
    sentry_of_good_cons ⟨_, false, false⟩ rfl c (cs ++ rest) h1
  unfold extractString
  rw [hs]
  simp only [← List.cons_append, h2, h3]
  simp

theorem skipSign_sign (sign digits rest : List Nat)
    (hsign : sign = [] ∨ sign = [43] ∨ sign = [45]) (hne : digits ≠ [])
    (hd : ∀ x ∈ digits, isdigit x = true) :
    skipSign (sign ++ (digits ++ rest)) = digits ++ rest ∧
    ((sign ++ (digits ++ rest)).head? == some 45) = decide (sign = [45]) := by
  obtain ⟨d, ds, rfl⟩ := List.exists_cons_of_ne_nil hne
  have hd0 := hd d (List.mem_cons_self _ _)
  simp only [isdigit, Bool.and_eq_true, decide_eq_true_eq] at hd0
  have h45 : d ≠ 45 := by omega
  have h43 : d ≠ 43 := by omega
  rcases hsign with rfl | rfl | rfl
  · simp [skipSign, h45, h43]
  · simp [skipSign]
  · simp [skipSign]

/-- The extraction `is >> id` on a good stream whose input is whitespace, an optional sign,
digits denoting a 32-bit value, and a rest that is empty or starts with a byte that is not
a digit: the value is extracted, and `eofbit` is set exactly when the rest is empty. -/
theorem extractInt_number (gap sign digits rest : List Nat) (id : Int)
    (hgap : ∀ x ∈ gap, isspace x = true) (hsign : sign = [] ∨ sign = [43] ∨ sign = [45])
    (hne : digits ≠ []) (hd : ∀ x ∈ digits, isdigit x = true)
    (hrest : ∀ c ∈ rest.head?, isdigit c = false)
    (hrange : inInt32
      (if sign = [45] then -(digitsValue digits : Int) else (digitsValue digits : Int))) :
    extractInt ⟨gap ++ (sign ++ (digits ++ rest)), false, false⟩ id =
      (⟨rest, rest.isEmpty, false⟩,
        if sign = [45] then -(digitsValue digits : Int) else (digitsValue digits : Int)) := by
  obtain ⟨hskip, hneg⟩ := skipSign_sign sign digits rest hsign hne hd
  have hne' : sign ++ (digits ++ rest) ≠ [] := by
    obtain ⟨d, ds, rfl⟩ := List.exists_cons_of_ne_nil hne
    simp
  obtain ⟨c, cs, hc⟩ := List.exists_cons_of_ne_nil hne'
  have hcsp : isspace c = false := by
    obtain ⟨d, ds, rfl⟩ := List.exists_cons_of_ne_nil hne
    have hd0 := isdigit_not_isspace d (hd d (List.mem_cons_self _ _))
    rcases hsign with rfl | rfl | rfl
    · simp only [List.nil_append, List.cons_append, List.cons.injEq] at hc
      rw [← hc.1]; exact hd0
    · simp only [List.cons_append, List.nil_append, List.cons.injEq] at hc
      rw [← hc.1]; decide
    · simp only [List.cons_append, List.nil_append, List.cons.injEq] at hc
      rw [← hc.1]; decide
  have h1 : (gap ++ (sign ++ (digits ++ rest))).dropWhile isspace = c :: cs := by
    rw [← hc]
    exact dropWhile_append_stop isspace gap _ hgap (by rw [hc]; simpa using hcsp)
  have hs : sentry ⟨gap ++ (sign ++ (digits ++ rest)), false, false⟩ =
      (⟨c :: cs, false, false⟩, true) :=
    sentry_of_good_cons ⟨_, false, false⟩ rfl c cs h1
  have h2 : (digits ++ rest).takeWhile isdigit = digits :=
    takeWhile_append_stop _ _ _ hd hrest
  have h3 : (digits ++ rest).dropWhile isdigit = rest :=
    dropWhile_append_stop _ _ _ hd hrest
  unfold extractInt
  rw [hs]
  simp only [← hc, hskip, hneg, h2, h3]
  have hde : digits.isEmpty = false := by
    cases digits with
    | nil => exact absurd rfl hne
    | cons _ _ => rfl
  unfold inInt32 at hrange
  by_cases h45 : sign = [45]
  · simp only [h45, if_true, decide_True] at hrange ⊢
    simp only [hde, Bool.false_eq_true, if_false, Bool.false_or]
    rw [if_neg (by omega), if_neg (by omega)]
  · simp only [h45, if_false, decide_False, Bool.false_eq_true] at hrange ⊢
    simp only [hde, Bool.false_eq_true, if_false, Bool.false_or]
    rw [if_neg (by omega), if_neg (by omega)]

/-- The loop at the end of the input: on a stream without `failbit` that has `eofbit` set
or only whitespace left, the condition is false with `eofbit` set, and the table is
returned as it is. -/
theorem InitLoop_end (fuel : Nat) (is : IStream) (sym : Str) (id : Int) (t : SymbolTable)
    (h : is.eofbit = true ∨ (is.failbit = false ∧ ∀ x ∈ is.buf, isspace x = true)) :
    InitLoop (fuel + 1) is sym id t = .ok t := by
  have key : (extractInt (extractString is sym).1 id).1.failbit = true ∧
      (extractInt (extractString is sym).1 id).1.eofbit = true := by
    by_cases he : is.eofbit = true
    · have hg : is.good = false := by simp [IStream.good, he]
      have hg' : IStream.good { is with failbit := true } = false := by simp [IStream.good]
      have e1 : extractString is sym = ({ is with failbit := true }, sym) := by
        simp only [extractString, sentry_of_not_good is hg]
      have e2 : extractInt { is with failbit := true } id = ({ is with failbit := true }, id) := by
        simp only [extractInt, sentry_of_not_good _ hg']
      rw [e1]
      simp only
      rw [e2]
      exact ⟨rfl, he⟩
    · rcases h with h | ⟨hf, hsp⟩
      · exact absurd h he
      · have hg : is.good = true := by
          simp only [Bool.not_eq_true] at he
          simp [IStream.good, he, hf]
        have hd : is.buf.dropWhile isspace = [] := by
          rw [List.dropWhile_eq_nil_iff]; exact hsp
        have hg' : IStream.good ⟨[], true, true⟩ = false := rfl
        have e1 : extractString is sym = (⟨[], true, true⟩, sym) := by
          simp only [extractString, sentry_of_good_nil is hg hd]
        have e2 : extractInt ⟨[], true, true⟩ id = (⟨[], true, true⟩, id) := by
          simp only [extractInt, sentry_of_not_good _ hg']
        rw [e1]
        simp only
        rw [e2]
        exact ⟨rfl, rfl⟩
  unfold InitLoop
  simp only [key.1, key.2, if_true]

theorem Record.valid_iff (r : Record) : r.valid = true ↔
    (∀ x ∈ r.lead, isspace x = true) ∧ r.tok ≠ [] ∧ (∀ x ∈ r.tok, isspace x = false) ∧
    r.gap ≠ [] ∧ (∀ x ∈ r.gap, isspace x = true) ∧
    (r.sign = [] ∨ r.sign = [43] ∨ r.sign = [45]) ∧
    r.digits ≠ [] ∧ (∀ x ∈ r.digits, isdigit x = true) ∧ inInt32 r.id := by
  simp only [Record.valid, Bool.and_eq_true, List.all_eq_true, Bool.not_eq_true',
    List.isEmpty_eq_false, Bool.or_eq_true, beq_iff_eq, decide_eq_true_eq, inInt32, ne_eq]
  tauto

/-- One iteration of the loop on a valid record followed by a rest that is empty or
starts with whitespace: the body runs on the token and the integer of the record, and
the loop goes on with the rest. -/
theorem InitLoop_record (fuel : Nat) (r : Record) (rest : List Nat) (sym : Str) (id : Int)
    (t : SymbolTable) (hr : r.valid = true) (hrest : ∀ c ∈ rest.head?, isspace c = true) :
    InitLoop (fuel + 1) ⟨r.text ++ rest, false, false⟩ sym id t =
      match insertRecord t r.tok r.id with
      | .error e => .error e
      | .ok t1 => InitLoop fuel ⟨rest, rest.isEmpty, false⟩ (normalize r.tok) r.id t1 := by
  obtain ⟨hlead, htne, htok, hgne, hgap, hsign, hdne, hd, hrange⟩ := (Record.valid_iff r).1 hr
  have hbuf : r.text ++ rest =
      r.lead ++ (r.tok ++ (r.gap ++ (r.sign ++ (r.digits ++ rest)))) := by
    simp [Record.text, List.append_assoc]
  have h1 := extractString_token r.lead r.tok (r.gap ++ (r.sign ++ (r.digits ++ rest))) sym
    hlead htne htok (by
      obtain ⟨g, gs, hg⟩ := List.exists_cons_of_ne_nil hgne
      intro c hc
      rw [hg] at hc
      simp only [List.cons_append, List.head?_cons, Option.mem_def, Option.some.injEq] at hc
      rw [← hc]
      exact hgap g (hg ▸ List.mem_cons_self _ _))
  have hge : (r.gap ++ (r.sign ++ (r.digits ++ rest))).isEmpty = false := by
    obtain ⟨g, gs, hg⟩ := List.exists_cons_of_ne_nil hgne
    rw [hg]; rfl
  rw [hge] at h1
  have h2 := extractInt_number r.gap r.sign r.digits rest id hgap hsign hdne hd
    (fun c hc => isspace_not_isdigit c (hrest c hc)) hrange
  conv_lhs => unfold InitLoop
  rw [hbuf, h1]
  simp only
  rw [h2]
  simp only [Bool.false_eq_true, if_false, Record.id]

theorem Record.text_ne_nil (r : Record) (hr : r.valid = true) : r.text ≠ [] := by
  obtain ⟨-, htne, -⟩ := (Record.valid_iff r).1 hr
  obtain ⟨c, cs, hc⟩ := List.exists_cons_of_ne_nil htne
  simp [Record.text, hc]

/-- The loop on a well-formed sequence of records: the body runs on the records in order,
until the first failing assertion, and the end of the input is clean. -/
theorem InitLoop_records (trail : List Nat) (htrail : ∀ x ∈ trail, isspace x = true) :
    ∀ (recs : List Record) (fuel : Nat) (sym : Str) (id : Int) (t : SymbolTable) (eof : Bool),
      recs.length < fuel → (∀ r ∈ recs, r.valid = true) → (∀ r ∈ recs.tail, r.lead ≠ []) →
      (eof = true → recs = [] ∧ trail = []) →
      InitLoop fuel ⟨recordsText recs ++ trail, eof, false⟩ sym id t =
        insertAll t (pairsOf recs) := by
  intro recs
  induction recs with
  | nil =>
    intro fuel sym id t eof hfuel _ _ _
    obtain ⟨f, rfl⟩ : ∃ f, fuel = f + 1 := ⟨fuel - 1, by simp at hfuel; omega⟩
    simp only [recordsText, List.nil_append, pairsOf, List.map_nil, insertAll]
    exact InitLoop_end f _ sym id t (Or.inr ⟨rfl, htrail⟩)
  | cons r rs ih =>
    intro fuel sym id t eof hfuel hvalid hlead heof
    obtain ⟨f, rfl⟩ : ∃ f, fuel = f + 1 := ⟨fuel - 1, by simp at hfuel; omega⟩
    have he : eof = false := by
      cases eof
      · rfl
      · exact absurd (heof rfl).1 (by simp)
    subst he
    have hr := hvalid r (List.mem_cons_self _ _)
    have hrest : ∀ c ∈ (recordsText rs ++ trail).head?, isspace c = true := by
      intro c hc
      cases rs with
      | nil =>
        simp only [recordsText, List.nil_append] at hc
        exact htrail c (List.mem_of_mem_head? hc)
      | cons r' rs' =>
        have hl := hlead r' (by simp)
        have hv := hvalid r' (by simp)
        obtain ⟨hsp, -⟩ := (Record.valid_iff r').1 hv
        obtain ⟨g, gs, hg⟩ := List.exists_cons_of_ne_nil hl
        simp only [recordsText, Record.text, hg, List.cons_append, List.head?_cons,
          Option.mem_def, Option.some.injEq] at hc
        rw [← hc]
        exact hsp g (hg ▸ List.mem_cons_self _ _)
    have hstep := InitLoop_record f r (recordsText rs ++ trail) sym id t hr hrest
    simp only [recordsText, List.append_assoc, pairsOf, List.map_cons, insertAll] at hstep ⊢
    rw [hstep]
    cases hins : insertRecord t r.tok r.id with
    | error e => rfl
    | ok t1 =>
      simp only
      refine ih f _ _ t1 _ (by simp at hfuel; omega)
        (fun x hx => hvalid x (List.mem_cons_of_mem _ hx)) ?_ ?_
      · intro x hx
        exact hlead x (by simpa using List.mem_of_mem_tail hx)
      · intro hemp
        cases rs with
        | nil => simpa [recordsText] using hemp
        | cons r' rs' =>
          have hv := hvalid r' (by simp)
          have := Record.text_ne_nil r' hv
          obtain ⟨c, cs, hc⟩ := List.exists_cons_of_ne_nil this
          simp [recordsText, hc] at hemp

theorem WellFormed_iff (recs : List Record) (trail : List Nat) :
    WellFormed recs trail = true ↔
      (∀ r ∈ recs, r.valid = true) ∧ (∀ r ∈ recs.tail, r.lead ≠ []) ∧
      ∀ x ∈ trail, isspace x = true := by
  simp [WellFormed, and_assoc]

theorem length_le_recordsText (recs : List Record) (h : ∀ r ∈ recs, r.valid = true) :
    recs.length ≤ (recordsText recs).length := by
  induction recs with
  | nil => simp
  | cons r rs ih =>
    have hne := Record.text_ne_nil r (h r (List.mem_cons_self _ _))
    have hpos : 0 < r.text.length := List.length_pos.2 hne
    have := ih (fun x hx => h x (List.mem_cons_of_mem _ hx))
    simp only [recordsText, List.length_cons, List.length_append]
    omega

/-- Construction from a well-formed sequence of records runs the loop body on the
records in order. -/
theorem fromBytes_records (recs : List Record) (trail : List Nat)
    (h : WellFormed recs trail = true) :
    fromBytes (recordsText recs ++ trail) = insertAll SymbolTable.empty (pairsOf recs) := by
  obtain ⟨hv, hl, ht⟩ := (WellFormed_iff recs trail).1 h
  unfold fromBytes Init IStream.ofBytes
  refine InitLoop_records trail ht recs _ _ _ _ false ?_ hv hl (by simp)
  have := length_le_recordsText recs hv
  simp only [List.length_append]
  omega

/-! ## Lemmas: the loop body on a sequence of records -/

theorem normalize_eq_nil_iff (s : Str) : normalize s = [] ↔ s = [] := by
  unfold normalize
  constructor
  · intro h
    split_ifs at h with h1 h2
    · simp at h
    · exact h
    · exact h
  · rintro rfl
    simp

/-- The failing runs of the loop body: which assertion fails, and why. -/
theorem insertRecord_error (t : SymbolTable) (sym : Str) (id : Int) (e : InitError)
    (h : insertRecord t sym id = .error e) :
    (e = .emptySymbol ∧ sym = []) ∨
    (e = .duplicateSymbol ∧ sym ≠ [] ∧ normalize sym ∈ t.sym2id_.map Prod.fst) ∨
    (e = .duplicateId ∧ sym ≠ [] ∧ normalize sym ∉ t.sym2id_.map Prod.fst ∧
      id ∈ t.id2sym_.map Prod.fst) := by
  unfold insertRecord at h
  simp only at h
  split_ifs at h with h1 h2 h3
  · cases h
    exact Or.inl ⟨rfl, (normalize_eq_nil_iff sym).1 (by simpa using h1)⟩
  · cases h
    refine Or.inr (Or.inl ⟨rfl, ?_, (mapCount_ne_zero_iff _ _).1 h2⟩)
    intro hs
    exact h1 (by simp [(normalize_eq_nil_iff sym).2 hs])
  · cases h
    refine Or.inr (Or.inr ⟨rfl, ?_, ?_, (mapCount_ne_zero_iff _ _).1 h3⟩)
    · intro hs
      exact h1 (by simp [(normalize_eq_nil_iff sym).2 hs])
    · rw [← mapCount_eq_zero_iff]
      simpa using h2

/-- The loop body passes when the symbol is not empty and neither the stored symbol nor
the id is a key yet. -/
theorem insertRecord_ok_of (t : SymbolTable) (sym : Str) (id : Int) (hne : sym ≠ [])
    (hs : normalize sym ∉ t.sym2id_.map Prod.fst) (hi : id ∉ t.id2sym_.map Prod.fst) :
    insertRecord t sym id =
      .ok { sym2id_ := mapInsert strLess t.sym2id_ (normalize sym) id,
            id2sym_ := mapInsert intLess t.id2sym_ id (normalize sym) } := by
  have h1 : (normalize sym).isEmpty = false := by
    cases hn : normalize sym with
    | nil => exact absurd ((normalize_eq_nil_iff sym).1 hn) hne
    | cons _ _ => rfl
  have h2 := (mapCount_eq_zero_iff _ _).2 hs
  have h3 := (mapCount_eq_zero_iff _ _).2 hi
  simp [insertRecord, h1, h2, h3]

theorem insertAll_append (t : SymbolTable) (a b : List (Str × Int)) :
    insertAll t (a ++ b) =
      match insertAll t a with
      | .ok t1 => insertAll t1 b
      | .error e => .error e := by
  induction a generalizing t with
  | nil => rfl
  | cons p a ih =>
    obtain ⟨s, i⟩ := p
    simp only [List.cons_append, insertAll]
    cases insertRecord t s i with
    | error e => rfl
    | ok t1 => exact ih t1

/-- What a passing run of the loop body on a sequence of pairs says: the invariant is kept,
the stored symbols and the ids are pairwise distinct and were not keys before, and the
table holds the old pairs and the new ones. -/
theorem insertAll_ok (pairs : List (Str × Int)) :
    ∀ (t t' : SymbolTable), t.WF → insertAll t pairs = .ok t' →
      t'.WF ∧ (symsOf pairs).Nodup ∧ (idsOf pairs).Nodup ∧
      (∀ x ∈ symsOf pairs, x ∉ t.sym2id_.map Prod.fst) ∧
      (∀ x ∈ idsOf pairs, x ∉ t.id2sym_.map Prod.fst) ∧
      (∀ q, q ∈ t'.sym2id_ ↔ q ∈ t.sym2id_ ∨ q ∈ pairs.map (fun p => (normalize p.1, p.2))) ∧
      t'.sym2id_.length = t.sym2id_.length + pairs.length := by
  induction pairs with
  | nil =>
    intro t t' ht h
    simp only [insertAll, InitResult.ok.injEq] at h
    subst h
    simp [symsOf, idsOf, ht]
  | cons p pairs ih =>
    intro t t' ht h
    obtain ⟨s, i⟩ := p
    simp only [insertAll] at h
    cases h1 : insertRecord t s i with
    | error e => rw [h1] at h; cases h
    | ok t1 =>
      rw [h1] at h
      simp only at h
      have ht1 := insertRecord_WF t t1 s i ht h1
      obtain ⟨-, hs, hi, rfl⟩ := insertRecord_ok t t1 s i h1
      obtain ⟨hwf, hns, hni, hfs, hfi, hmem, hlen⟩ := ih _ t' ht1 h
      have ks := keys_mapInsert strLess_strictTotal t.sym2id_ (normalize s) i hs
      have ki := keys_mapInsert intLess_strictTotal t.id2sym_ i (normalize s) hi
      simp only at hfs hfi hmem hlen
      refine ⟨hwf, ?_, ?_, ?_, ?_, ?_, ?_⟩
      · simp only [symsOf, List.map_cons, List.nodup_cons]
        exact ⟨fun hc => hfs _ hc ((ks _).2 (Or.inl rfl)), hns⟩
      · simp only [idsOf, List.map_cons, List.nodup_cons]
        exact ⟨fun hc => hfi _ hc ((ki _).2 (Or.inl rfl)), hni⟩
      · intro x hx
        simp only [symsOf, List.map_cons, List.mem_cons] at hx
        rcases hx with rfl | hx
        · exact hs
        · exact fun hc => hfs x hx ((ks x).2 (Or.inr hc))
      · intro x hx
        simp only [idsOf, List.map_cons, List.mem_cons] at hx
        rcases hx with rfl | hx
        · exact hi
        · exact fun hc => hfi x hx ((ki x).2 (Or.inr hc))
      · intro q
        rw [hmem q, mem_mapInsert strLess_strictTotal _ _ _ hs]
        simp only [List.map_cons, List.mem_cons]
        tauto
      · rw [hlen, length_mapInsert strLess_strictTotal _ _ _ hs]
        simp only [List.length_cons]
        omega

/-- The keys of the two maps after a passing run of the loop body on a sequence of pairs. -/
theorem insertAll_keys (pairs : List (Str × Int)) (t t' : SymbolTable) (ht : t.WF)
    (h : insertAll t pairs = .ok t') :
    (∀ x, x ∈ t'.sym2id_.map Prod.fst ↔ x ∈ t.sym2id_.map Prod.fst ∨ x ∈ symsOf pairs) ∧
    (∀ x, x ∈ t'.id2sym_.map Prod.fst ↔ x ∈ t.id2sym_.map Prod.fst ∨ x ∈ idsOf pairs) := by
  obtain ⟨hwf, -, -, -, -, hmem, -⟩ := insertAll_ok pairs t t' ht h
  constructor
  · intro x
    constructor
    · intro hx
      obtain ⟨q, hq, rfl⟩ := List.mem_map.1 hx
      rcases (hmem q).1 hq with h1 | h1
      · exact Or.inl (List.mem_map.2 ⟨q, h1, rfl⟩)
      · obtain ⟨p, hp, rfl⟩ := List.mem_map.1 h1
        exact Or.inr (List.mem_map.2 ⟨p, hp, rfl⟩)
    · rintro (hx | hx)
      · obtain ⟨q, hq, rfl⟩ := List.mem_map.1 hx
        exact List.mem_map.2 ⟨q, (hmem q).2 (Or.inl hq), rfl⟩
      · obtain ⟨p, hp, rfl⟩ := List.mem_map.1 hx
        exact List.mem_map.2 ⟨(normalize p.1, p.2),
          (hmem _).2 (Or.inr (List.mem_map.2 ⟨p, hp, rfl⟩)), rfl⟩
  · intro x
    constructor
    · intro hx
      obtain ⟨⟨i, s⟩, hq, rfl⟩ := List.mem_map.1 hx
      rcases (hmem (s, i)).1 ((hwf.inverse s i).2 hq) with h1 | h1
      · exact Or.inl (List.mem_map.2 ⟨(i, s), (ht.inverse s i).1 h1, rfl⟩)
      · obtain ⟨p, hp, hpe⟩ := List.mem_map.1 h1
        simp only [Prod.mk.injEq] at hpe
        exact Or.inr (List.mem_map.2 ⟨p, hp, hpe.2⟩)
    · rintro (hx | hx)
      · obtain ⟨⟨i, s⟩, hq, rfl⟩ := List.mem_map.1 hx
        exact List.mem_map.2
          ⟨(i, s), (hwf.inverse s i).1 ((hmem _).2 (Or.inl ((ht.inverse s i).2 hq))), rfl⟩
      · obtain ⟨p, hp, rfl⟩ := List.mem_map.1 hx
        exact List.mem_map.2 ⟨(p.2, normalize p.1),
          (hwf.inverse _ _).1 ((hmem _).2 (Or.inr (List.mem_map.2 ⟨p, hp, rfl⟩))), rfl⟩

/-- On non-empty tokens the loop body can only fail with a duplicate symbol or a
duplicate id. -/
theorem insertAll_error_kind (pairs : List (Str × Int)) :
    ∀ (t : SymbolTable) (e : InitError), (∀ p ∈ pairs, p.1 ≠ []) →
      insertAll t pairs = .error e → e = .duplicateSymbol ∨ e = .duplicateId := by
  induction pairs with
  | nil => intro t e _ h; simp [insertAll] at h
  | cons p pairs ih =>
    intro t e hne h
    obtain ⟨s, i⟩ := p
    simp only [insertAll] at h
    cases h1 : insertRecord t s i with
    | error e1 =>
      rw [h1] at h
      simp only [InitResult.error.injEq] at h
      subst h
      rcases insertRecord_error t s i e1 h1 with ⟨-, hs⟩ | ⟨he, -⟩ | ⟨he, -⟩
      · exact absurd hs (hne (s, i) (List.mem_cons_self _ _))
      · exact Or.inl he
      · exact Or.inr he
    | ok t1 =>
      rw [h1] at h
      exact ih t1 e (fun q hq => hne q (List.mem_cons_of_mem _ hq)) h

theorem insertAll_ne_duplicateSymbol (pairs : List (Str × Int)) :
    ∀ (t : SymbolTable), (symsOf pairs).Nodup →
      (∀ x ∈ symsOf pairs, x ∉ t.sym2id_.map Prod.fst) →
      insertAll t pairs ≠ .error .duplicateSymbol := by
  induction pairs with
  | nil => intro t _ _ h; simp [insertAll] at h
  | cons p pairs ih =>
    intro t hnd hfresh h
    obtain ⟨s, i⟩ := p
    simp only [symsOf, List.map_cons, List.nodup_cons, List.mem_cons, forall_eq_or_imp] at hnd hfresh
    simp only [insertAll] at h
    cases h1 : insertRecord t s i with
    | error e1 =>
      rw [h1] at h
      simp only [InitResult.error.injEq] at h
      subst h
      rcases insertRecord_error t s i _ h1 with ⟨he, -⟩ | ⟨-, -, hs⟩ | ⟨he, -⟩
      · cases he
      · exact hfresh.1 hs
      · cases he
    | ok t1 =>
      rw [h1] at h
      obtain ⟨-, hs, hi, rfl⟩ := insertRecord_ok t t1 s i h1
      refine ih _ hnd.2 ?_ h
      intro x hx hc
      rcases (keys_mapInsert strLess_strictTotal t.sym2id_ (normalize s) i hs x).1 hc with rfl | hc
      · exact hnd.1 hx
      · exact hfresh.2 x hx hc

theorem insertAll_ne_duplicateId (pairs : List (Str × Int)) :
    ∀ (t : SymbolTable), (idsOf pairs).Nodup →
      (∀ x ∈ idsOf pairs, x ∉ t.id2sym_.map Prod.fst) →
      insertAll t pairs ≠ .error .duplicateId := by
  induction pairs with
  | nil => intro t _ _ h; simp [insertAll] at h
  | cons p pairs ih =>
    intro t hnd hfresh h
    obtain ⟨s, i⟩ := p
    simp only [idsOf, List.map_cons, List.nodup_cons, List.mem_cons, forall_eq_or_imp] at hnd hfresh
    simp only [insertAll] at h
    cases h1 : insertRecord t s i with
    | error e1 =>
      rw [h1] at h
      simp only [InitResult.error.injEq] at h
      subst h
      rcases insertRecord_error t s i _ h1 with ⟨he, -⟩ | ⟨he, -⟩ | ⟨-, -, -, hs⟩
      · cases he
      · cases he
      · exact hfresh.1 hs
    | ok t1 =>
      rw [h1] at h
      obtain ⟨-, hs, hi, rfl⟩ := insertRecord_ok t t1 s i h1
      refine ih _ hnd.2 ?_ h
      intro x hx hc
      rcases (keys_mapInsert intLess_strictTotal t.id2sym_ i (normalize s) hi x).1 hc with rfl | hc
      · exact hnd.1 hx
      · exact hfresh.2 x hx hc

/-- The loop body passes on a sequence of pairs with non-empty tokens whose stored symbols
and ids are pairwise distinct and not keys yet. -/
theorem insertAll_ok_of (pairs : List (Str × Int)) (t : SymbolTable)
    (hne : ∀ p ∈ pairs, p.1 ≠ [])
    (hns : (symsOf pairs).Nodup) (hfs : ∀ x ∈ symsOf pairs, x ∉ t.sym2id_.map Prod.fst)
    (hni : (idsOf pairs).Nodup) (hfi : ∀ x ∈ idsOf pairs, x ∉ t.id2sym_.map Prod.fst) :
    ∃ t', insertAll t pairs = .ok t' := by
  cases h : insertAll t pairs with
  | ok t' => exact ⟨t', rfl⟩
  | error e =>
    rcases insertAll_error_kind pairs t e hne h with rfl | rfl
    · exact absurd h (insertAll_ne_duplicateSymbol pairs t hns hfs)
    · exact absurd h (insertAll_ne_duplicateId pairs t hni hfi)

theorem pairsOf_ne_nil (recs : List Record) (h : ∀ r ∈ recs, r.valid = true) :
    ∀ p ∈ pairsOf recs, p.1 ≠ [] := by
  intro p hp
  obtain ⟨r, hr, rfl⟩ := List.mem_map.1 hp
  exact ((Record.valid_iff r).1 (h r hr)).2.1

theorem insertRecord_duplicateSymbol (t : SymbolTable) (sym : Str) (id : Int)
    (hne : sym ≠ []) (hs : normalize sym ∈ t.sym2id_.map Prod.fst) :
    insertRecord t sym id = .error .duplicateSymbol := by
  have h1 : (normalize sym).isEmpty = false := by
    cases hn : normalize sym with
    | nil => exact absurd ((normalize_eq_nil_iff sym).1 hn) hne
    | cons _ _ => rfl
  have h2 := (mapCount_ne_zero_iff _ _).2 hs
  simp [insertRecord, h1, h2]

theorem insertRecord_duplicateId (t : SymbolTable) (sym : Str) (id : Int)
    (hne : sym ≠ []) (hs : normalize sym ∉ t.sym2id_.map Prod.fst)
    (hi : id ∈ t.id2sym_.map Prod.fst) :
    insertRecord t sym id = .error .duplicateId := by
  have h1 : (normalize sym).isEmpty = false := by
    cases hn : normalize sym with
    | nil => exact absurd ((normalize_eq_nil_iff sym).1 hn) hne
    | cons _ _ => rfl
  have h2 := (mapCount_eq_zero_iff _ _).2 hs
  have h3 := (mapCount_ne_zero_iff _ _).2 hi
  simp [insertRecord, h1, h2, h3]

theorem pairsOf_append (a b : List Record) : pairsOf (a ++ b) = pairsOf a ++ pairsOf b := by
  simp [pairsOf]

theorem symsOf_pairsOf (recs : List Record) :
    symsOf (pairsOf recs) = recs.map (fun r => normalize r.tok) := by
  simp [symsOf, pairsOf, List.map_map, Function.comp_def]

theorem idsOf_pairsOf (recs : List Record) : idsOf (pairsOf recs) = recs.map Record.id := by
  simp [idsOf, pairsOf, List.map_map, Function.comp_def]

/-- The loop body on records that repeat a stored symbol: the run fails, with a duplicate
symbol or a duplicate id, and with a duplicate symbol when the ids of the records before the
repetition are pairwise distinct. -/
theorem insertAll_repeated_symbol (A B C : List Record) (r1 r2 : Record)
    (hv : ∀ r ∈ A ++ r1 :: (B ++ r2 :: C), r.valid = true)
    (hsym : normalize r1.tok = normalize r2.tok) :
    (insertAll SymbolTable.empty (pairsOf (A ++ r1 :: (B ++ r2 :: C))) =
        .error .duplicateSymbol ∨
      insertAll SymbolTable.empty (pairsOf (A ++ r1 :: (B ++ r2 :: C))) =
        .error .duplicateId) ∧
    (((A ++ r1 :: B).map Record.id).Nodup →
      insertAll SymbolTable.empty (pairsOf (A ++ r1 :: (B ++ r2 :: C))) =
        .error .duplicateSymbol) := by
  have hsplit : A ++ r1 :: (B ++ r2 :: C) = (A ++ r1 :: B) ++ r2 :: C := by simp
  have hne2 : r2.tok ≠ [] := ((Record.valid_iff r2).1 (hv r2 (by simp))).2.1
  have hneP : ∀ p ∈ pairsOf (A ++ r1 :: B), p.1 ≠ [] :=
    pairsOf_ne_nil _ (fun r hr => hv r (by
      rw [hsplit]; exact List.mem_append_left _ hr))
  rw [hsplit, pairsOf_append, insertAll_append]
  cases hP : insertAll SymbolTable.empty (pairsOf (A ++ r1 :: B)) with
  | ok t1 =>
    have hk := (insertAll_keys _ _ t1 WF_empty hP).1 (normalize r2.tok)
    have hin : normalize r2.tok ∈ t1.sym2id_.map Prod.fst := by
      rw [hk, symsOf_pairsOf, ← hsym]
      exact Or.inr (List.mem_map.2 ⟨r1, by simp, rfl⟩)
    have : insertAll t1 (pairsOf (r2 :: C)) = .error .duplicateSymbol := by
      simp only [pairsOf, List.map_cons, insertAll,
        insertRecord_duplicateSymbol t1 r2.tok r2.id hne2 hin]
    simp only [this]
    exact ⟨Or.inl trivial, fun _ => trivial⟩
  | error e =>
    simp only
    rcases insertAll_error_kind _ _ e hneP hP with rfl | rfl
    · exact ⟨Or.inl rfl, fun _ => rfl⟩
    · refine ⟨Or.inr rfl, fun hnd => ?_⟩
      exact absurd hP (insertAll_ne_duplicateId _ _ (by rw [idsOf_pairsOf]; exact hnd)
        (by simp [SymbolTable.empty]))

/-- The loop body on records that repeat an id: the run fails, with a duplicate symbol or a
duplicate id, and with a duplicate id when the stored symbols of the records up to the
repetition are pairwise distinct. -/
theorem insertAll_repeated_id (A B C : List Record) (r1 r2 : Record)
    (hv : ∀ r ∈ A ++ r1 :: (B ++ r2 :: C), r.valid = true)
    (hid : r1.id = r2.id) :
    (insertAll SymbolTable.empty (pairsOf (A ++ r1 :: (B ++ r2 :: C))) =
        .error .duplicateSymbol ∨
      insertAll SymbolTable.empty (pairsOf (A ++ r1 :: (B ++ r2 :: C))) =
        .error .duplicateId) ∧
    (((A ++ r1 :: (B ++ [r2])).map (fun r => normalize r.tok)).Nodup →
      insertAll SymbolTable.empty (pairsOf (A ++ r1 :: (B ++ r2 :: C))) =
        .error .duplicateId) := by
  have hsplit : A ++ r1 :: (B ++ r2 :: C) = (A ++ r1 :: B) ++ r2 :: C := by simp
  have hsplit' : A ++ r1 :: (B ++ [r2]) = (A ++ r1 :: B) ++ [r2] := by simp
  have hne2 : r2.tok ≠ [] := ((Record.valid_iff r2).1 (hv r2 (by simp))).2.1
  have hneP : ∀ p ∈ pairsOf (A ++ r1 :: B), p.1 ≠ [] :=
    pairsOf_ne_nil _ (fun r hr => hv r (by
      rw [hsplit]; exact List.mem_append_left _ hr))
  rw [hsplit, hsplit', pairsOf_append, insertAll_append]
  cases hP : insertAll SymbolTable.empty (pairsOf (A ++ r1 :: B)) with
  | ok t1 =>
    obtain ⟨hks, hki⟩ := insertAll_keys _ _ t1 WF_empty hP
    have hin : r2.id ∈ t1.id2sym_.map Prod.fst := by
      rw [hki, idsOf_pairsOf, ← hid]
      exact Or.inr (List.mem_map.2 ⟨r1, by simp, rfl⟩)
    by_cases hs : normalize r2.tok ∈ t1.sym2id_.map Prod.fst
    · have : insertAll t1 (pairsOf (r2 :: C)) = .error .duplicateSymbol := by
        simp only [pairsOf, List.map_cons, insertAll,
          insertRecord_duplicateSymbol t1 r2.tok r2.id hne2 hs]
      simp only [this]
      refine ⟨Or.inl trivial, fun hnd => ?_⟩
      rw [List.map_append, List.nodup_append] at hnd
      rw [hks, symsOf_pairsOf] at hs
      simp only [SymbolTable.empty, List.map_nil, List.not_mem_nil, false_or] at hs
      exact (hnd.2.2 hs (by simp)).elim
    · have : insertAll t1 (pairsOf (r2 :: C)) = .error .duplicateId := by
        simp only [pairsOf, List.map_cons, insertAll,
          insertRecord_duplicateId t1 r2.tok r2.id hne2 hs hin]
      simp only [this]
      exact ⟨Or.inr trivial, fun _ => trivial⟩
  | error e =>
    simp only
    rcases insertAll_error_kind _ _ e hneP hP with rfl | rfl
    · refine ⟨Or.inl rfl, fun hnd => ?_⟩
      rw [List.map_append, List.nodup_append] at hnd
      exact absurd hP (insertAll_ne_duplicateSymbol _ _ (by rw [symsOf_pairsOf]; exact hnd.1)
        (by simp [SymbolTable.empty]))
    · exact ⟨Or.inr rfl, fun _ => rfl⟩

/-! ## Lemmas: inputs that end in the middle of a record -/

theorem extractInt_at_end (is : IStream) (id : Int)
    (h : is.eofbit = true ∨ (is.failbit = false ∧ ∀ x ∈ is.buf, isspace x = true)) :
    (extractInt is id).1.failbit = true ∧ (extractInt is id).1.eofbit = true := by
  by_cases he : is.eofbit = true
  · have hg : is.good = false := by simp [IStream.good, he]
    have e2 : extractInt is id = ({ is with failbit := true }, id) := by
      simp only [extractInt, sentry_of_not_good _ hg]
    rw [e2]
    exact ⟨rfl, he⟩
  · rcases h with h | ⟨hf, hsp⟩
    · exact absurd h he
    · have hg : is.good = true := by
        simp only [Bool.not_eq_true] at he
        simp [IStream.good, he, hf]
      have hd : is.buf.dropWhile isspace = [] := by
        rw [List.dropWhile_eq_nil_iff]; exact hsp
      have e2 : extractInt is id = (⟨[], true, true⟩, id) := by
        simp only [extractInt, sentry_of_good_nil is hg hd]
      rw [e2]
      exact ⟨rfl, rfl⟩

/-- The loop on a well-formed sequence of records followed by a rest that is empty or
starts with whitespace: the body runs on the records in order, and the loop goes on with
the rest. -/
theorem InitLoop_records_rest (rest : List Nat) (hrest : ∀ c ∈ rest.head?, isspace c = true) :
    ∀ (recs : List Record) (fuel : Nat) (sym : Str) (id : Int) (t : SymbolTable) (eof : Bool),
      recs.length ≤ fuel → (∀ r ∈ recs, r.valid = true) → (∀ r ∈ recs.tail, r.lead ≠ []) →
      (eof = true → recs = []) →
      ∃ sym' id', InitLoop fuel ⟨recordsText recs ++ rest, eof, false⟩ sym id t =
        match insertAll t (pairsOf recs) with
        | .error e => .error e
        | .ok t1 =>
          InitLoop (fuel - recs.length)
            ⟨rest, if recs.isEmpty then eof else rest.isEmpty, false⟩ sym' id' t1 := by
  intro recs
  induction recs with
  | nil =>
    intro fuel sym id t eof _ _ _ _
    exact ⟨sym, id, by simp [recordsText, pairsOf, insertAll]⟩
  | cons r rs ih =>
    intro fuel sym id t eof hfuel hvalid hlead heof
    obtain ⟨f, rfl⟩ : ∃ f, fuel = f + 1 := ⟨fuel - 1, by simp at hfuel; omega⟩
    have he : eof = false := by
      cases eof
      · rfl
      · exact absurd (heof rfl) (by simp)
    subst he
    have hr := hvalid r (List.mem_cons_self _ _)
    have hrest' : ∀ c ∈ (recordsText rs ++ rest).head?, isspace c = true := by
      intro c hc
      cases rs with
      | nil =>
        simp only [recordsText, List.nil_append] at hc
        exact hrest c hc
      | cons r' rs' =>
        have hl := hlead r' (by simp)
        have hv := hvalid r' (by simp)
        obtain ⟨hsp, -⟩ := (Record.valid_iff r').1 hv
        obtain ⟨g, gs, hg⟩ := List.exists_cons_of_ne_nil hl
        simp only [recordsText, Record.text, hg, List.cons_append, List.head?_cons,
          Option.mem_def, Option.some.injEq] at hc
        rw [← hc]
        exact hsp g (hg ▸ List.mem_cons_self _ _)
    have hstep := InitLoop_record f r (recordsText rs ++ rest) sym id t hr hrest'
    have hemp : (recordsText rs ++ rest).isEmpty = true → rs = [] := by
      intro hemp
      cases rs with
      | nil => rfl
      | cons r' rs' =>
        have hv := hvalid r' (by simp)
        have := Record.text_ne_nil r' hv
        obtain ⟨c, cs, hc⟩ := List.exists_cons_of_ne_nil this
        simp [recordsText, hc] at hemp
    simp only [recordsText, List.append_assoc, pairsOf, List.map_cons, insertAll] at hstep ⊢
    cases hins : insertRecord t r.tok r.id with
    | error e =>
      refine ⟨sym, id, ?_⟩
      rw [hstep, hins]
    | ok t1 =>
      obtain ⟨sym', id', hih⟩ := ih f (normalize r.tok) r.id t1
        (recordsText rs ++ rest).isEmpty (by simp at hfuel; omega)
        (fun x hx => hvalid x (List.mem_cons_of_mem _ hx))
        (fun x hx => hlead x (by simpa using List.mem_of_mem_tail hx)) hemp
      refine ⟨sym', id', ?_⟩
      rw [hstep, hins]
      simp only
      rw [hih]
      have hfl : f + 1 - (rs.length + 1) = f - rs.length := by omega
      have hbit : (if rs.isEmpty = true then (recordsText rs ++ rest).isEmpty
          else rest.isEmpty) = rest.isEmpty := by
        cases rs with
        | nil => simp [recordsText]
        | cons _ _ => simp
      simp only [pairsOf, List.length_cons, hfl, hbit, List.isEmpty_cons, Bool.false_eq_true,
        if_false]

/-- The loop on an input that ends with a symbol and no integer: the condition is false
with `eofbit` set, and the table is returned as it is. -/
theorem InitLoop_dangling (fuel : Nat) (lead tok trail : List Nat) (sym : Str)
    (id : Int) (t : SymbolTable)
    (hlead : ∀ x ∈ lead, isspace x = true) (hne : tok ≠ [])
    (htok : ∀ x ∈ tok, isspace x = false) (htrail : ∀ x ∈ trail, isspace x = true) :
    InitLoop (fuel + 1) ⟨lead ++ (tok ++ trail), false, false⟩ sym id t = .ok t := by
  have h1 := extractString_token lead tok trail sym hlead hne htok
    (fun c hc => htrail c (List.mem_of_mem_head? hc))
  have h2 := extractInt_at_end ⟨trail, trail.isEmpty, false⟩ id (Or.inr ⟨rfl, htrail⟩)
  unfold InitLoop
  rw [h1]
  simp only [h2.1, h2.2, if_true]

/-- The loop on an input in which the symbol of a record is followed by an optional sign
and then a byte that is not a digit: the integer extraction fails before the end of the
input, and `assert(is.eof())` fails. -/
theorem InitLoop_bad_int (fuel : Nat) (lead tok gap sign : List Nat) (c : Nat)
    (rest : List Nat) (sym : Str) (id : Int) (t : SymbolTable)
    (hlead : ∀ x ∈ lead, isspace x = true) (hne : tok ≠ [])
    (htok : ∀ x ∈ tok, isspace x = false) (hgne : gap ≠ [])
    (hgap : ∀ x ∈ gap, isspace x = true) (hsign : sign = [] ∨ sign = [43] ∨ sign = [45])
    (hc : isdigit c = false) (hc' : sign = [] → isspace c = false ∧ c ≠ 43 ∧ c ≠ 45) :
    InitLoop (fuel + 1) ⟨lead ++ (tok ++ (gap ++ (sign ++ c :: rest))), false, false⟩ sym id t =
      .error .notEof := by
  obtain ⟨g, gs, hg⟩ := List.exists_cons_of_ne_nil hgne
  have h1 := extractString_token lead tok (gap ++ (sign ++ c :: rest)) sym hlead hne htok (by
    intro x hx
    rw [hg] at hx
    simp only [List.cons_append, List.head?_cons, Option.mem_def, Option.some.injEq] at hx
    rw [← hx]
    exact hgap g (hg ▸ List.mem_cons_self _ _))
  have hge : (gap ++ (sign ++ c :: rest)).isEmpty = false := by rw [hg]; rfl
  rw [hge] at h1
  obtain ⟨d, ds, hd, hdsp⟩ : ∃ d ds, sign ++ c :: rest = d :: ds ∧ isspace d = false := by
    rcases hsign with rfl | rfl | rfl
    · exact ⟨c, rest, rfl, (hc' rfl).1⟩
    · exact ⟨43, c :: rest, rfl, by decide⟩
    · exact ⟨45, c :: rest, rfl, by decide⟩
  have hdrop : (gap ++ (sign ++ c :: rest)).dropWhile isspace = d :: ds := by
    rw [hd]
    exact dropWhile_append_stop isspace gap _ hgap (by simpa using hdsp)
  have hs : sentry ⟨gap ++ (sign ++ c :: rest), false, false⟩ = (⟨d :: ds, false, false⟩, true) :=
    sentry_of_good_cons ⟨_, false, false⟩ rfl d ds hdrop
  have hskip : skipSign (d :: ds) = c :: rest := by
    rw [← hd]
    rcases hsign with rfl | rfl | rfl
    · simp [skipSign, (hc' rfl).2.1, (hc' rfl).2.2]
    · simp [skipSign]
    · simp [skipSign]
  have h2 : (extractInt ⟨gap ++ (sign ++ c :: rest), false, false⟩ id).1 =
      ⟨c :: rest, false, true⟩ := by
    unfold extractInt
    rw [hs]
    simp [hskip, List.takeWhile_cons, List.dropWhile_cons, hc]
  unfold InitLoop
  rw [h1]
  simp only [h2]
  simp

/-- Construction from a well-formed sequence of records followed by whitespace and a
non-empty tail: the body runs on the records in order, and the loop goes on, on a good
stream, with the whitespace and the tail. -/
theorem fromBytes_records_then (recs : List Record) (lead tail : List Nat)
    (hwf : WellFormed recs lead = true) (hlead : recs ≠ [] → lead ≠ []) :
    ∃ sym' id' k, fromBytes (recordsText recs ++ (lead ++ tail)) =
      match insertAll SymbolTable.empty (pairsOf recs) with
      | .error e => .error e
      | .ok t1 => InitLoop (k + 1) ⟨lead ++ tail, false, false⟩ sym' id' t1 := by
  obtain ⟨hv, hl, hsp⟩ := (WellFormed_iff recs lead).1 hwf
  cases recs with
  | nil =>
    exact ⟨[], 0, (lead ++ tail).length, by
      simp [fromBytes, Init, IStream.ofBytes, recordsText, pairsOf, insertAll]⟩
  | cons r rs =>
    obtain ⟨g, gs, hg⟩ := List.exists_cons_of_ne_nil (hlead (by simp))
    have hrest : ∀ c ∈ (lead ++ tail).head?, isspace c = true := by
      intro c hc
      rw [hg] at hc
      simp only [List.cons_append, List.head?_cons, Option.mem_def, Option.some.injEq] at hc
      rw [← hc]
      exact hsp g (hg ▸ List.mem_cons_self _ _)
    have hlen := length_le_recordsText (r :: rs) hv
    obtain ⟨sym', id', h⟩ := InitLoop_records_rest (lead ++ tail) hrest (r :: rs)
      ((recordsText (r :: rs) ++ (lead ++ tail)).length + 1) [] 0 SymbolTable.empty false
      (by simp only [List.length_append]; omega) hv hl (by simp)
    obtain ⟨k, hk⟩ : ∃ k, (recordsText (r :: rs) ++ (lead ++ tail)).length + 1 -
        (r :: rs).length = k + 1 :=
      ⟨(recordsText (r :: rs) ++ (lead ++ tail)).length - (r :: rs).length, by
        simp only [List.length_append] at *; omega⟩
    refine ⟨sym', id', k, ?_⟩
    unfold fromBytes Init IStream.ofBytes
    rw [h, hk]
    have hne : (lead ++ tail).isEmpty = false := by rw [hg]; rfl
    simp only [List.isEmpty_cons, Bool.false_eq_true, if_false, hne]

/-- An input of well-formed records followed by a symbol with no integer after it gives
the result of the records alone: the dangling symbol is dropped without an error. -/
theorem fromBytes_dangling (recs : List Record) (lead tok trail : List Nat)
    (hwf : WellFormed recs lead = true) (hlead : recs ≠ [] → lead ≠ [])
    (hne : tok ≠ []) (htok : ∀ x ∈ tok, isspace x = false)
    (htrail : ∀ x ∈ trail, isspace x = true) :
    fromBytes (recordsText recs ++ (lead ++ (tok ++ trail))) =
      insertAll SymbolTable.empty (pairsOf recs) := by
  obtain ⟨sym', id', k, h⟩ := fromBytes_records_then recs lead (tok ++ trail) hwf hlead
  rw [h]
  cases insertAll SymbolTable.empty (pairsOf recs) with
  | error e => rfl
  | ok t1 =>
    exact InitLoop_dangling k lead tok trail sym' id' t1
      ((WellFormed_iff recs lead).1 hwf).2.2 hne htok htrail

/-! ## Lemmas: serialization -/

theorem digitsValue_append (ds : List Nat) (d : Nat) :
    digitsValue (ds ++ [d]) = 10 * digitsValue ds + (d - 48) := by
  simp [digitsValue, List.foldl_append]

/-- The digits `natToDecAux` puts in front of the accumulator: a non-empty run of decimal
digits whose value is the number. -/
theorem natToDecAux_spec : ∀ (fuel n : Nat) (acc : List Nat), n < fuel →
    ∃ ds, natToDecAux fuel n acc = ds ++ acc ∧ ds ≠ [] ∧ (∀ d ∈ ds, isdigit d = true) ∧
      digitsValue ds = n := by
  intro fuel
  induction fuel with
  | zero => intro n acc h; omega
  | succ fuel ih =>
    intro n acc hlt
    unfold natToDecAux
    split_ifs with h10
    · refine ⟨[48 + n], rfl, by simp, ?_, ?_⟩
      · intro d hd
        simp only [List.mem_singleton] at hd
        subst hd
        simp only [isdigit, Bool.and_eq_true, decide_eq_true_eq]
        omega
      · simp [digitsValue]
    · obtain ⟨ds, hds, -, hdig, hval⟩ := ih (n / 10) ((48 + n % 10) :: acc) (by omega)
      refine ⟨ds ++ [48 + n % 10], by rw [hds]; simp, by simp, ?_, ?_⟩
      · intro d hd
        rcases List.mem_append.1 hd with hd | hd
        · exact hdig d hd
        · simp only [List.mem_singleton] at hd
          subst hd
          simp only [isdigit, Bool.and_eq_true, decide_eq_true_eq]
          omega
      · rw [digitsValue_append, hval]
        omega

/-- The output of `os << i` is the decimal notation of `i`: a `-` when `i` is negative,
then a non-empty run of decimal digits whose value is the absolute value of `i`. -/
theorem intToDec_spec (i : Int) :
    ∃ ds, intToDec i = (if i < 0 then [45] else []) ++ ds ∧ ds ≠ [] ∧
      (∀ d ∈ ds, isdigit d = true) ∧ digitsValue ds = i.natAbs := by
  obtain ⟨ds, hds, hne, hdig, hval⟩ := natToDecAux_spec (i.natAbs + 1) i.natAbs []
    (Nat.lt_succ_self _)
  rw [List.append_nil] at hds
  refine ⟨ds, ?_, hne, hdig, hval⟩
  unfold intToDec
  split_ifs <;> simp [hds]

theorem intToDec_no_newline (i : Int) : (10 : Nat) ∉ intToDec i := by
  obtain ⟨ds, hds, -, hdig, -⟩ := intToDec_spec i
  rw [hds]
  intro h
  rcases List.mem_append.1 h with h | h
  · split_ifs at h
    · simp at h
    · simp at h
  · exact absurd (hdig 10 h) (by decide)

theorem mem_normalize (s : Str) (c : Nat) (h : c ∈ normalize s) : c = 32 ∨ c ∈ s := by
  unfold normalize at h
  split_ifs at h with h1 h2
  · simp only [List.singleton_append, List.mem_cons] at h
    rcases h with h | h
    · exact Or.inl h
    · exact Or.inr (List.mem_of_mem_drop h)
  · exact Or.inr h
  · exact Or.inr h

theorem Init_FromTokens (is : IStream) (t : SymbolTable) (h : Init is = .ok t) :
    t.FromTokens := by
  refine InitLoop_inv SymbolTable.FromTokens ?_ _ _ _ _ _ _ (by
    intro p hp; simp [SymbolTable.empty] at hp) h
  intro t sym id t' ht hne hsp hr hins p hp
  obtain ⟨-, -, -, rfl⟩ := insertRecord_ok t t' sym id hins
  rcases mem_mapInsert_imp _ _ _ _ p hp with rfl | hp
  · exact ⟨⟨sym, hne, hsp, rfl⟩, hr⟩
  · exact ht p hp

theorem FromTokens_no_newline (t : SymbolTable) (ht : t.FromTokens) :
    ∀ p ∈ t.sym2id_, (10 : Nat) ∉ p.1 := by
  intro p hp h10
  obtain ⟨⟨tok, -, hsp, hp1⟩, -⟩ := ht p hp
  rw [hp1] at h10
  rcases mem_normalize tok 10 h10 with h | h
  · exact absurd h (by decide)
  · exact absurd (hsp 10 h) (by decide)

theorem count_newline_lines (m : List (Str × Int)) (h : ∀ p ∈ m, (10 : Nat) ∉ p.1) :
    (m.flatMap (fun p => p.1 ++ [32] ++ intToDec p.2 ++ [10])).count 10 = m.length := by
  induction m with
  | nil => rfl
  | cons p m ih =>
    have h1 : p.1.count 10 = 0 := List.count_eq_zero.2 (h p (List.mem_cons_self _ _))
    have h2 : (intToDec p.2).count 10 = 0 := List.count_eq_zero.2 (intToDec_no_newline p.2)
    simp only [List.flatMap_cons, List.count_append, List.length_cons,
      ih (fun q hq => h q (List.mem_cons_of_mem _ hq)), h1, h2]
    simp
    omega

/-! ## Lemmas: normalization -/

theorem normalize_eq_ite (s : Str) :
    normalize s = if marker <+: s then 32 :: s.drop 3 else s := by
  unfold marker
  match s with
  | [] => simp [normalize]
  | [a] => simp [normalize]
  | [a, b] => simp [normalize]
  | a :: b :: c :: rest =>
    by_cases h : a = 0xE2 ∧ b = 0x96 ∧ c = 0x81
    · obtain ⟨rfl, rfl, rfl⟩ := h
      simp [normalize, List.prefix_cons_inj]
    · have hp : ¬ ([0xE2, 0x96, 0x81] <+: a :: b :: c :: rest) := by
        intro hp
        obtain ⟨u, hu⟩ := hp
        simp only [List.cons_append, List.nil_append, List.cons.injEq] at hu
        exact h ⟨hu.1.symm, hu.2.1.symm, hu.2.2.1.symm⟩
      rw [if_neg hp]
      simp only [normalize, List.length_cons, ge_iff_le, Nat.le_add_left, if_true,
        List.getD_cons_zero, List.getD_cons_succ, Bool.and_eq_true, beq_iff_eq]
      rw [if_neg]
      rintro ⟨⟨h1, h2⟩, h3⟩
      exact h ⟨h1, h2, h3⟩

theorem marker_prefix_iff (s : Str) : marker <+: s ↔ ∃ rest, s = 0xE2 :: 0x96 :: 0x81 :: rest := by
  constructor
  · rintro ⟨u, rfl⟩
    exact ⟨u, rfl⟩
  · rintro ⟨u, rfl⟩
    exact ⟨u, rfl⟩

/-- A normalized symbol never starts with the marker. -/
theorem not_marker_prefix_normalize (s : Str) : ¬ (marker <+: normalize s) := by
  rw [normalize_eq_ite]
  split_ifs with h
  · intro hc
    obtain ⟨u, hu⟩ := (marker_prefix_iff _).1 hc
    simp at hu
  · exact h

theorem normalize_of_no_marker (s : Str) (h : ¬ (marker <+: s)) : normalize s = s := by
  rw [normalize_eq_ite, if_neg h]

theorem normalize_idem (s : Str) : normalize (normalize s) = normalize s :=
  normalize_of_no_marker _ (not_marker_prefix_normalize s)

/-- A normalized symbol starts with a space exactly when the token starts with the marker
or with a space. -/
theorem head_normalize_of_marker (s : Str) (h : marker <+: s) :
    (normalize s).head? = some 32 := by
  rw [normalize_eq_ite, if_pos h]
  rfl

/-- Normalization is injective on tokens: a token that starts with the marker is stored
with a leading space, which no token has. -/
theorem normalize_injective (a b : Str) (ha : ∀ c ∈ a, isspace c = false)
    (hb : ∀ c ∈ b, isspace c = false) (h : normalize a = normalize b) : a = b := by
  have key : ∀ x y : Str, marker <+: x → ¬ (marker <+: y) → (∀ c ∈ y, isspace c = false) →
      normalize x ≠ normalize y := by
    intro x y hx hy hysp he
    have h1 := head_normalize_of_marker x hx
    rw [he, normalize_of_no_marker y hy] at h1
    have hmem : (32 : Nat) ∈ y := List.mem_of_mem_head? h1
    exact absurd (hysp 32 hmem) (by decide)
  by_cases h1 : marker <+: a
  · by_cases h2 : marker <+: b
    · obtain ⟨u, rfl⟩ := (marker_prefix_iff a).1 h1
      obtain ⟨v, rfl⟩ := (marker_prefix_iff b).1 h2
      rw [normalize_eq_ite, normalize_eq_ite, if_pos h1, if_pos h2] at h
      simp only [List.drop_succ_cons, List.drop_zero, List.cons.injEq, true_and] at h
      rw [h]
    · exact absurd h (key a b h1 h2 hb)
  · by_cases h2 : marker <+: b
    · exact absurd h.symm (key b a h2 h1 ha)
    · rwa [normalize_of_no_marker a h1, normalize_of_no_marker b h2] at h

/-! ## Lemmas: the empty-symbol assertion -/

/-- A string extraction that leaves `failbit` clear has extracted a non-empty run of bytes
that are not whitespace. -/
theorem extractString_token_of_ok (is : IStream) (sym : Str)
    (h : (extractString is sym).1.failbit = false) :
    (extractString is sym).2 ≠ [] ∧ ∀ c ∈ (extractString is sym).2, isspace c = false := by
  revert h
  unfold extractString
  rcases hs : sentry is with ⟨is1, b⟩
  cases b
  · intro h
    rw [sentry_false_failbit is is1 hs] at h
    cases h
  · obtain ⟨-, -, -, hb, hne⟩ := sentry_true is is1 hs
    obtain ⟨c, cs, hcs⟩ := List.exists_cons_of_ne_nil hne
    have hc : isspace c = false := by
      have := List.head_dropWhile_not isspace is.buf (by rw [← hb]; exact hne)
      simp only [← hb, hcs, List.head_cons] at this
      simpa using this
    intro _
    simp only
    refine ⟨?_, ?_⟩
    · simp [hcs, List.takeWhile_cons, hc]
    · intro x hx
      have := List.mem_takeWhile_imp hx
      simpa using this

theorem InitLoop_ne_emptySymbol :
    ∀ (fuel : Nat) (is : IStream) (sym : Str) (id : Int) (t : SymbolTable),
      InitLoop fuel is sym id t ≠ .error .emptySymbol := by
  intro fuel
  induction fuel with
  | zero => intro is sym id t h; simp [InitLoop] at h
  | succ fuel ih =>
    intro is sym id t
    unfold InitLoop
    simp only
    split_ifs with h1 h2
    · simp
    · simp
    · have h1' : (extractInt (extractString is sym).1 id).1.failbit = false := by
        simpa using h1
      obtain ⟨hne, -, -, -⟩ := extract_ok is sym id h1'
      split
      · rename_i e he
        intro hc
        cases hc
        rcases insertRecord_error _ _ _ _ he with ⟨-, hs⟩ | ⟨he', -⟩ | ⟨he', -⟩
        · exact hne hs
        · cases he'
        · cases he'
      · exact ih _ _ _ _

/-! ## Lemmas: accepted inputs -/

/-- Construction from a well-formed sequence of records whose stored symbols and ids are
pairwise distinct succeeds, and the table holds exactly the pairs of the records. -/
theorem fromBytes_ok (recs : List Record) (trail : List Nat)
    (hwf : WellFormed recs trail = true)
    (hsyms : (recs.map (fun r => normalize r.tok)).Nodup)
    (hids : (recs.map Record.id).Nodup) :
    ∃ t, fromBytes (recordsText recs ++ trail) = .ok t ∧ t.WF ∧
      ∀ q, q ∈ t.sym2id_ ↔ q ∈ recs.map (fun r => (normalize r.tok, r.id)) := by
  obtain ⟨hv, -, -⟩ := (WellFormed_iff recs trail).1 hwf
  obtain ⟨t, ht⟩ := insertAll_ok_of (pairsOf recs) SymbolTable.empty (pairsOf_ne_nil recs hv)
    (symsOf_pairsOf recs ▸ hsyms) (by simp [SymbolTable.empty])
    (idsOf_pairsOf recs ▸ hids) (by simp [SymbolTable.empty])
  obtain ⟨twf, -, -, -, -, hmem, -⟩ := insertAll_ok _ _ t WF_empty ht
  refine ⟨t, (fromBytes_records recs trail hwf).trans ht, twf, ?_⟩
  intro q
  rw [hmem q]
  simp [SymbolTable.empty, pairsOf, List.map_map, Function.comp_def]

/-- On a table that satisfies the invariant a stored pair is found by both lookups. -/
theorem WF_lookup (t : SymbolTable) (ht : t.WF) (s : Str) (i : Int) (h : (s, i) ∈ t.sym2id_) :
    idOf t s = some i ∧ symbolOf t i = some s :=
  ⟨mapAt_of_mem _ _ _ (ht.sortedSym.nodup_keys strLess_strictTotal) h,
    mapAt_of_mem _ _ _ (ht.sortedId.nodup_keys intLess_strictTotal) ((ht.inverse s i).1 h)⟩

theorem Record.tok_spec (r : Record) (hr : r.valid = true) :
    r.tok ≠ [] ∧ ∀ c ∈ r.tok, isspace c = false :=
  ⟨((Record.valid_iff r).1 hr).2.1, ((Record.valid_iff r).1 hr).2.2.1⟩

/-- On valid records the stored symbols are pairwise distinct exactly when the raw tokens
are. -/
theorem nodup_syms_iff_nodup_toks (recs : List Record) (hv : ∀ r ∈ recs, r.valid = true) :
    (recs.map (fun r => normalize r.tok)).Nodup ↔ (recs.map (fun r => r.tok)).Nodup := by
  have hmap : recs.map (fun r => normalize r.tok) = (recs.map (fun r => r.tok)).map normalize := by
    simp [List.map_map, Function.comp_def]
  rw [hmap]
  constructor
  · exact List.Nodup.of_map normalize
  · intro h
    refine List.Nodup.map_on ?_ h
    intro a ha b hb hab
    obtain ⟨ra, hra, rfl⟩ := List.mem_map.1 ha
    obtain ⟨rb, hrb, rfl⟩ := List.mem_map.1 hb
    exact normalize_injective _ _ (Record.tok_spec ra (hv ra hra)).2
      (Record.tok_spec rb (hv rb hrb)).2 hab

theorem FromTokens_ne_nil (t : SymbolTable) (ht : t.FromTokens) :
    ∀ p ∈ t.sym2id_, p.1 ≠ [] := by
  intro p hp hnil
  obtain ⟨⟨tok, hne, -, hp1⟩, -⟩ := ht p hp
  rw [hp1] at hnil
  exact hne ((normalize_eq_nil_iff tok).1 hnil)

/-- In a constructed table every stored symbol, in either map, is non-empty. -/
theorem Init_symbols_ne_nil (is : IStream) (t : SymbolTable) (h : Init is = .ok t) :
    (∀ p ∈ t.sym2id_, p.1 ≠ []) ∧ (∀ p ∈ t.id2sym_, p.2 ≠ []) := by
  have h1 := FromTokens_ne_nil t (Init_FromTokens is t h)
  refine ⟨h1, fun p hp => ?_⟩
  exact h1 (p.2, p.1) (((Init_WF is t h).inverse p.2 p.1).2 hp)

/-! ## Lemmas: reading the serialization back -/

theorem intToDec_eq (i : Int) :
    intToDec i = (if i < 0 then [45] else []) ++ natToDecAux (i.natAbs + 1) i.natAbs [] := by
  unfold intToDec
  split_ifs <;> rfl

theorem natToDecAux_digits (n : Nat) :
    natToDecAux (n + 1) n [] ≠ [] ∧ (∀ d ∈ natToDecAux (n + 1) n [], isdigit d = true) ∧
    digitsValue (natToDecAux (n + 1) n []) = n := by
  obtain ⟨ds, hds, hne, hdig, hval⟩ := natToDecAux_spec (n + 1) n [] (Nat.lt_succ_self _)
  rw [List.append_nil] at hds
  rw [hds]
  exact ⟨hne, hdig, hval⟩

theorem entryRecord_id (lead : List Nat) (p : Str × Int) : (entryRecord lead p).id = p.2 := by
  have hval := (natToDecAux_digits p.2.natAbs).2.2
  unfold Record.id entryRecord
  simp only [hval]
  by_cases h : p.2 < 0
  · simp only [h, if_true]
    omega
  · simp only [h, if_false]
    rw [if_neg (by simp)]
    omega

theorem entryRecord_valid (lead : List Nat) (p : Str × Int)
    (hlead : ∀ x ∈ lead, isspace x = true) (hne : p.1 ≠ [])
    (htok : ∀ c ∈ p.1, isspace c = false) (hr : inInt32 p.2) :
    (entryRecord lead p).valid = true := by
  rw [Record.valid_iff]
  obtain ⟨hdne, hdig, -⟩ := natToDecAux_digits p.2.natAbs
  refine ⟨hlead, hne, htok, by simp [entryRecord], ?_, ?_, hdne, hdig, ?_⟩
  · intro x hx
    simp only [entryRecord, List.mem_singleton] at hx
    subst hx
    decide
  · simp only [entryRecord]
    split_ifs
    · exact Or.inr (Or.inr rfl)
    · exact Or.inl rfl
  · rw [entryRecord_id]
    exact hr

theorem lines_eq_recordsText : ∀ (ps : List (Str × Int)) (lead : List Nat) (p : Str × Int),
    lead ++ ((p.1 ++ [32] ++ intToDec p.2 ++ [10]) ++
        ps.flatMap (fun q => q.1 ++ [32] ++ intToDec q.2 ++ [10])) =
      recordsText (entryRecord lead p :: ps.map (entryRecord [10])) ++ [10] := by
  intro ps
  induction ps with
  | nil =>
    intro lead p
    simp [recordsText, Record.text, entryRecord, intToDec_eq]
  | cons q qs ih =>
    intro lead p
    have := ih [10] q
    simp only [List.flatMap_cons, List.map_cons, recordsText] at this ⊢
    rw [List.append_assoc (entryRecord lead p).text, ← this]
    simp [Record.text, entryRecord, intToDec_eq]

theorem flatMap_lines (es : List (Str × Int)) (hne : es ≠ []) :
    es.flatMap (fun q => q.1 ++ [32] ++ intToDec q.2 ++ [10]) =
      recordsText (entryRecords es) ++ [10] := by
  obtain ⟨p, ps, rfl⟩ := List.exists_cons_of_ne_nil hne
  have := lines_eq_recordsText ps [] p
  simpa [entryRecords] using this

theorem pairsOf_entryRecords (es : List (Str × Int)) : pairsOf (entryRecords es) = es := by
  cases es with
  | nil => rfl
  | cons p ps =>
    simp only [entryRecords, pairsOf, List.map_cons, List.map_map, entryRecord_id]
    have : ((fun r : Record => (r.tok, r.id)) ∘ entryRecord [10]) = id := by
      funext q
      simp only [Function.comp_apply, entryRecord_id]
      rfl
    rw [this, List.map_id]
    rfl

/-- Construction from the lines of a sequence of entries whose symbols are tokens and whose
ids are in the 32-bit range runs the loop body on the entries in order. -/
theorem fromBytes_lines (es : List (Str × Int))
    (hes : ∀ p ∈ es, p.1 ≠ [] ∧ (∀ c ∈ p.1, isspace c = false) ∧ inInt32 p.2) :
    fromBytes (es.flatMap (fun q => q.1 ++ [32] ++ intToDec q.2 ++ [10])) =
      insertAll SymbolTable.empty es := by
  cases es with
  | nil =>
    have := fromBytes_records [] [] (by decide)
    simpa [recordsText, pairsOf] using this
  | cons p ps =>
    rw [flatMap_lines (p :: ps) (by simp)]
    have hwf : WellFormed (entryRecords (p :: ps)) [10] = true := by
      rw [WellFormed_iff]
      refine ⟨?_, ?_, by decide⟩
      · intro r hr
        simp only [entryRecords, List.mem_cons, List.mem_map] at hr
        rcases hr with rfl | ⟨q, hq, rfl⟩
        · obtain ⟨h1, h2, h3⟩ := hes p (List.mem_cons_self _ _)
          exact entryRecord_valid [] p (by simp) h1 h2 h3
        · obtain ⟨h1, h2, h3⟩ := hes q (List.mem_cons_of_mem _ hq)
          exact entryRecord_valid [10] q (by decide) h1 h2 h3
      · intro r hr
        simp only [entryRecords, List.tail_cons, List.mem_map] at hr
        obtain ⟨q, -, rfl⟩ := hr
        simp [entryRecord]
    rw [fromBytes_records _ _ hwf, pairsOf_entryRecords]

/-- Two maps in ascending key order with the same pairs are equal. -/
theorem sorted_ext {κ ν : Type} {lt : κ → κ → Bool} (hlt : StrictTotal lt)
    (a b : List (κ × ν)) (ha : Sorted lt a) (hb : Sorted lt b)
    (h : ∀ q, q ∈ a ↔ q ∈ b) : a = b := by
  haveI : IsAntisymm (κ × ν) (fun p q => lt p.1 q.1 = true) :=
    ⟨fun p q h1 h2 => by
      have := hlt.trans _ _ _ h1 h2
      rw [hlt.irrefl] at this
      cases this⟩
  have hna : a.Nodup := List.Nodup.of_map Prod.fst (ha.nodup_keys hlt)
  have hnb : b.Nodup := List.Nodup.of_map Prod.fst (hb.nodup_keys hlt)
  exact List.eq_of_perm_of_sorted ((List.perm_ext_iff_of_nodup hna hnb).2 h) ha hb

/-- In a table that satisfies the invariant the ids of the symbol→id mapping are pairwise
distinct. -/
theorem WF_nodup_ids (t : SymbolTable) (ht : t.WF) : (t.sym2id_.map Prod.snd).Nodup := by
  have hn : t.sym2id_.Nodup :=
    List.Nodup.of_map Prod.fst (ht.sortedSym.nodup_keys strLess_strictTotal)
  refine List.Nodup.map_on ?_ hn
  rintro ⟨s, i⟩ hp ⟨s', i'⟩ hq hi
  simp only at hi
  subst hi
  have h1 := (WF_lookup t ht s i hp).2
  have h2 := (WF_lookup t ht s' i hq).2
  rw [h1] at h2
  simp only [Option.some.injEq] at h2
  rw [h2]

/-- The loop body run on the entries of a table, in any order, rebuilds the table, when
every stored symbol is its own normalization. -/
theorem insertAll_perm (t : SymbolTable) (ht : t.WF)
    (hsym : ∀ p ∈ t.sym2id_, p.1 ≠ [] ∧ normalize p.1 = p.1)
    (es : List (Str × Int)) (hperm : es.Perm t.sym2id_) :
    insertAll SymbolTable.empty es = .ok t := by
  have hmemes : ∀ p, p ∈ es ↔ p ∈ t.sym2id_ := fun p => hperm.mem_iff
  have hsyms : symsOf es = es.map Prod.fst := by
    unfold symsOf
    exact List.map_congr_left (fun p hp => (hsym p ((hmemes p).1 hp)).2)
  have hns : (symsOf es).Nodup := by
    rw [hsyms]
    exact ((hperm.map Prod.fst).nodup_iff).2 (ht.sortedSym.nodup_keys strLess_strictTotal)
  have hni : (idsOf es).Nodup :=
    ((hperm.map Prod.snd).nodup_iff).2 (WF_nodup_ids t ht)
  obtain ⟨t', ht'⟩ := insertAll_ok_of es SymbolTable.empty
    (fun p hp => (hsym p ((hmemes p).1 hp)).1) hns (by simp [SymbolTable.empty])
    hni (by simp [SymbolTable.empty])
  obtain ⟨twf, -, -, -, -, hmem, -⟩ := insertAll_ok _ _ t' WF_empty ht'
  have hmem' : ∀ q, q ∈ t'.sym2id_ ↔ q ∈ t.sym2id_ := by
    intro q
    rw [hmem q, ← hmemes q]
    simp only [SymbolTable.empty, List.not_mem_nil, false_or, List.mem_map]
    constructor
    · rintro ⟨p, hp, rfl⟩
      rw [(hsym p ((hmemes p).1 hp)).2]
      exact hp
    · intro hq
      exact ⟨q, hq, by rw [(hsym q ((hmemes q).1 hq)).2]⟩
  have e1 : t'.sym2id_ = t.sym2id_ :=
    sorted_ext strLess_strictTotal _ _ twf.sortedSym ht.sortedSym hmem'
  have e2 : t'.id2sym_ = t.id2sym_ := by
    refine sorted_ext intLess_strictTotal _ _ twf.sortedId ht.sortedId ?_
    rintro ⟨i, s⟩
    rw [← twf.inverse s i, ← ht.inverse s i, hmem']
  rw [ht']
  cases t
  cases t'
  simp only at e1 e2
  rw [e1, e2]

/-- In a constructed table a stored symbol that does not begin with a space is a token
(non-empty, without whitespace) and its own normalization; every id is in the 32-bit
range. -/
theorem FromTokens_entry (t : SymbolTable) (ht : t.FromTokens) (p : Str × Int)
    (hp : p ∈ t.sym2id_) (hsp : p.1.head? ≠ some 32) :
    p.1 ≠ [] ∧ (∀ c ∈ p.1, isspace c = false) ∧ normalize p.1 = p.1 ∧ inInt32 p.2 := by
  obtain ⟨⟨tok, hne, htok, hp1⟩, hr⟩ := ht p hp
  have hnp : ¬ (marker <+: tok) := by
    intro hpre
    exact hsp (hp1 ▸ head_normalize_of_marker tok hpre)
  have heq : p.1 = tok := hp1.trans (normalize_of_no_marker tok hnp)
  rw [heq]
  exact ⟨hne, htok, normalize_of_no_marker tok hnp, hr⟩

/-- Reading back the lines of the entries of a constructed table without a symbol that
begins with a space, in any order, gives the table. -/
theorem fromBytes_lines_perm (is : IStream) (t : SymbolTable) (h : Init is = .ok t)
    (hsp : ∀ p ∈ t.sym2id_, p.1.head? ≠ some 32)
    (es : List (Str × Int)) (hperm : es.Perm t.sym2id_) :
    fromBytes (es.flatMap (fun q => q.1 ++ [32] ++ intToDec q.2 ++ [10])) = .ok t := by
  have hft := Init_FromTokens is t h
  have hwf := Init_WF is t h
  have hentry := fun p hp => FromTokens_entry t hft p hp (hsp p hp)
  rw [fromBytes_lines es (fun p hp => by
    obtain ⟨h1, h2, -, h4⟩ := hentry p (hperm.mem_iff.1 hp)
    exact ⟨h1, h2, h4⟩)]
  exact insertAll_perm t hwf (fun p hp => ⟨(hentry p hp).1, (hentry p hp).2.2.1⟩) es hperm

/-- An empty or whitespace-only input gives the empty table. -/
theorem fromBytes_whitespace (ws : List Nat) (h : ∀ x ∈ ws, isspace x = true) :
    fromBytes ws = .ok SymbolTable.empty := by
  have hwf : WellFormed [] ws = true := by
    rw [WellFormed_iff]
    exact ⟨by simp, by simp, h⟩
  have := fromBytes_records [] ws hwf
  simpa [recordsText, pairsOf, insertAll] using this

/-- On an accepted input of records, a stored symbol begins with a space exactly when the
token of its record begins with the marker. -/
theorem leading_space_iff_marker (recs : List Record) (trail : List Nat) (t : SymbolTable)
    (hwf : WellFormed recs trail = true) (h : fromBytes (recordsText recs ++ trail) = .ok t) :
    (∀ p ∈ t.sym2id_, p.1.head? ≠ some 32) ↔ (∀ r ∈ recs, ¬ (marker <+: r.tok)) := by
  obtain ⟨hv, -, -⟩ := (WellFormed_iff recs trail).1 hwf
  rw [fromBytes_records _ _ hwf] at h
  obtain ⟨-, -, -, -, -, hmem, -⟩ := insertAll_ok _ _ t WF_empty h
  have hmem' : ∀ q, q ∈ t.sym2id_ ↔ ∃ r ∈ recs, (normalize r.tok, r.id) = q := by
    intro q
    rw [hmem q]
    simp [SymbolTable.empty, pairsOf, List.map_map, Function.comp_def]
  constructor
  · intro hsp r hr hpre
    exact hsp (normalize r.tok, r.id) ((hmem' _).2 ⟨r, hr, rfl⟩)
      (head_normalize_of_marker r.tok hpre)
  · intro hno p hp hhead
    obtain ⟨r, hr, rfl⟩ := (hmem' p).1 hp
    simp only [normalize_of_no_marker r.tok (hno r hr)] at hhead
    have := (Record.tok_spec r (hv r hr)).2 32 (List.mem_of_mem_head? hhead)
    exact absurd this (by decide)

/-! ## The claims -/

/-- C1 (bijection invariant). In every table that `Init` constructs, each pair (s, i) of the
symbol→id mapping has `idOf s = i` and `symbolOf i = s`, each pair (i, s) of the id→symbol
mapping has (s, i) in the symbol→id mapping, and the two mappings have the same number of
entries. -/
theorem bijection_invariant (is : IStream) (t : SymbolTable) (h : Init is = .ok t) :
    (∀ s i, (s, i) ∈ t.sym2id_ → idOf t s = some i ∧ symbolOf t i = some s) ∧
    (∀ i s, (i, s) ∈ t.id2sym_ → (s, i) ∈ t.sym2id_) ∧
    t.sym2id_.length = t.id2sym_.length := by
  have hwf := Init_WF is t h
  refine ⟨?_, ?_, hwf.sameSize⟩
  · intro s i hsi
    exact ⟨mapAt_of_mem _ _ _ (hwf.sortedSym.nodup_keys strLess_strictTotal) hsi,
      mapAt_of_mem _ _ _ (hwf.sortedId.nodup_keys intLess_strictTotal)
        ((hwf.inverse s i).1 hsi)⟩
  · intro i s his
    exact (hwf.inverse s i).2 his

/-- The bijection invariant on the table of the scenario. -/
theorem bijection_invariant_witness :
    Init (IStream.ofBytes scenarioInput) = .ok scenarioTable ∧
    ((∀ s i, (s, i) ∈ scenarioTable.sym2id_ →
        idOf scenarioTable s = some i ∧ symbolOf scenarioTable i = some s) ∧
     (∀ i s, (i, s) ∈ scenarioTable.id2sym_ → (s, i) ∈ scenarioTable.sym2id_) ∧
     scenarioTable.sym2id_.length = scenarioTable.id2sym_.length) :=
  ⟨by decide, bijection_invariant (IStream.ofBytes scenarioInput) scenarioTable (by decide)⟩

/-- C2 (construction correctness). For an input that is a sequence of whitespace-separated
records ending at clean end of input, whose normalized symbols are pairwise distinct and
whose 32-bit ids are pairwise distinct, `Init` succeeds, the table has exactly as many
entries as there are records (and no other keys), and for every record
`idOf (normalize token) = id` and `symbolOf id = normalize token`. -/
theorem construction_correct (recs : List Record) (trail : List Nat)
    (hwf : WellFormed recs trail = true)
    (hsyms : (recs.map (fun r => normalize r.tok)).Nodup)
    (hids : (recs.map Record.id).Nodup) :
    ∃ t, fromBytes (recordsText recs ++ trail) = .ok t ∧
      t.sym2id_.length = recs.length ∧ t.id2sym_.length = recs.length ∧
      (∀ r ∈ recs, idOf t (normalize r.tok) = some r.id ∧
        symbolOf t r.id = some (normalize r.tok)) ∧
      (∀ s, containsSym t s = true ↔ s ∈ recs.map (fun r => normalize r.tok)) ∧
      (∀ i, containsId t i = true ↔ i ∈ recs.map Record.id) := by
  obtain ⟨hv, -, -⟩ := (WellFormed_iff recs trail).1 hwf
  have hs' : symsOf (pairsOf recs) = recs.map (fun r => normalize r.tok) := by
    simp [symsOf, pairsOf, List.map_map, Function.comp_def]
  have hi' : idsOf (pairsOf recs) = recs.map Record.id := by
    simp [idsOf, pairsOf, List.map_map, Function.comp_def]
  obtain ⟨t, ht⟩ := insertAll_ok_of (pairsOf recs) SymbolTable.empty (pairsOf_ne_nil recs hv)
    (hs' ▸ hsyms) (by simp [SymbolTable.empty]) (hi' ▸ hids) (by simp [SymbolTable.empty])
  obtain ⟨twf, -, -, -, -, hmem, hlen⟩ := insertAll_ok _ _ t WF_empty ht
  obtain ⟨hks, hki⟩ := insertAll_keys _ _ t WF_empty ht
  have hlen' : t.sym2id_.length = recs.length := by
    simpa [SymbolTable.empty, pairsOf] using hlen
  refine ⟨t, (fromBytes_records recs trail hwf).trans ht, hlen', twf.sameSize ▸ hlen', ?_, ?_, ?_⟩
  · intro r hr
    have hin : (normalize r.tok, r.id) ∈ t.sym2id_ :=
      (hmem _).2 (Or.inr (List.mem_map.2 ⟨(r.tok, r.id), List.mem_map.2 ⟨r, hr, rfl⟩, rfl⟩))
    exact ⟨mapAt_of_mem _ _ _ (twf.sortedSym.nodup_keys strLess_strictTotal) hin,
      mapAt_of_mem _ _ _ (twf.sortedId.nodup_keys intLess_strictTotal)
        ((twf.inverse _ _).1 hin)⟩
  · intro x
    have := hks x
    simp only [SymbolTable.empty, List.map_nil, List.not_mem_nil, false_or, hs'] at this
    rw [← this, ← mapCount_ne_zero_iff]
    simp [containsSym]
  · intro x
    have := hki x
    simp only [SymbolTable.empty, List.map_nil, List.not_mem_nil, false_or, hi'] at this
    rw [← this, ← mapCount_ne_zero_iff]
    simp [containsId]

/-- The scenario of the specification, as an instance of the construction theorem:
the input of three records gives a table of size 3 with `idOf " hello" = 1`,
`symbolOf 2 = "world"`, `contains 0` true and `contains 5` false. -/
theorem construction_correct_witness :
    (WellFormed scenarioRecords (bytes "\n") = true ∧
     (scenarioRecords.map (fun r => normalize r.tok)).Nodup ∧
     (scenarioRecords.map Record.id).Nodup) ∧
    recordsText scenarioRecords ++ bytes "\n" = bytes "<unk> 0\n▁hello 1\nworld 2\n" ∧
    ∃ t, fromBytes (bytes "<unk> 0\n▁hello 1\nworld 2\n") = .ok t ∧
      t.sym2id_.length = 3 ∧ t.id2sym_.length = 3 ∧
      idOf t (bytes " hello") = some 1 ∧ symbolOf t 2 = some (bytes "world") ∧
      containsId t 0 = true ∧ containsId t 5 = false := by
  have hyp : WellFormed scenarioRecords (bytes "\n") = true ∧
      (scenarioRecords.map (fun r => normalize r.tok)).Nodup ∧
      (scenarioRecords.map Record.id).Nodup := ⟨by decide, by decide, by decide⟩
  obtain ⟨t, ht, hn, hn', hlook, -, hcont⟩ :=
    construction_correct scenarioRecords (bytes "\n") hyp.1 hyp.2.1 hyp.2.2
  have htxt : recordsText scenarioRecords ++ bytes "\n" =
      bytes "<unk> 0\n▁hello 1\nworld 2\n" := by decide
  refine ⟨hyp, htxt, t, htxt ▸ ht, hn, hn', ?_, ?_, ?_, ?_⟩
  · exact (hlook ⟨bytes "\n", bytes "▁hello", bytes " ", [], bytes "1"⟩ (by decide)).1
  · exact (hlook ⟨bytes "\n", bytes "world", bytes " ", [], bytes "2"⟩ (by decide)).2
  · exact (hcont 0).2 (by decide)
  · cases hc : containsId t 5
    · rfl
    · exact absurd ((hcont 5).1 hc) (by decide)

/-- C3 (normalization rule). A token whose first three bytes are `0xE2 0x96 0x81` is stored
as one space followed by its bytes from index 3 on, unchanged (so a token with two leading
markers keeps the second); any other token is stored byte for byte; and the symbol the
loop body stores for a token `s` is `normalize s`. The bytes of "▁the" are stored as " the"
and "the" is stored as "the". -/
theorem normalization_rule :
    (∀ rest : Str, normalize (0xE2 :: 0x96 :: 0x81 :: rest) = 32 :: rest) ∧
    (∀ rest : Str, normalize (0xE2 :: 0x96 :: 0x81 :: 0xE2 :: 0x96 :: 0x81 :: rest) =
      32 :: 0xE2 :: 0x96 :: 0x81 :: rest) ∧
    (∀ s : Str, normalize s = if [0xE2, 0x96, 0x81] <+: s then 32 :: s.drop 3 else s) ∧
    (∀ (t t' : SymbolTable) (s : Str) (id : Int), insertRecord t s id = .ok t' →
      (normalize s, id) ∈ t'.sym2id_ ∧ (id, normalize s) ∈ t'.id2sym_) ∧
    bytes "▁the" = [0xE2, 0x96, 0x81, 0x74, 0x68, 0x65] ∧
    normalize [0xE2, 0x96, 0x81, 0x74, 0x68, 0x65] = bytes " the" ∧
    normalize [0x74, 0x68, 0x65] = bytes "the" := by
  refine ⟨fun rest => by simp [normalize], fun rest => by simp [normalize], ?_, ?_,
    by decide, by decide, by decide⟩
  · intro s
    match s with
    | [] => simp [normalize]
    | [a] => simp [normalize]
    | [a, b] => simp [normalize]
    | a :: b :: c :: rest =>
      by_cases h : a = 0xE2 ∧ b = 0x96 ∧ c = 0x81
      · obtain ⟨rfl, rfl, rfl⟩ := h
        simp [normalize, List.prefix_cons_inj]
      · have hp : ¬ ([0xE2, 0x96, 0x81] <+: a :: b :: c :: rest) := by
          intro hp
          obtain ⟨u, hu⟩ := hp
          simp only [List.cons_append, List.nil_append, List.cons.injEq] at hu
          exact h ⟨hu.1.symm, hu.2.1.symm, hu.2.2.1.symm⟩
        rw [if_neg hp]
        simp only [normalize, List.length_cons, ge_iff_le, Nat.le_add_left, if_true,
          List.getD_cons_zero, List.getD_cons_succ, Bool.and_eq_true, beq_iff_eq]
        rw [if_neg]
        rintro ⟨⟨h1, h2⟩, h3⟩
        exact h ⟨h1, h2, h3⟩
  · intro t t' s id h
    obtain ⟨-, hs, hi, rfl⟩ := insertRecord_ok t t' s id h
    exact ⟨mem_mapInsert_self strLess_strictTotal _ _ _ hs,
      mem_mapInsert_self intLess_strictTotal _ _ _ hi⟩

/-- The normalization rule at the record ("▁the", 1) run on the empty table. -/
theorem normalization_rule_witness :
    insertRecord SymbolTable.empty (bytes "▁the") 1 =
      .ok ⟨[(bytes " the", 1)], [(1, bytes " the")]⟩ ∧
    (bytes " the", (1 : Int)) ∈ [(bytes " the", (1 : Int))] ∧
    ((1 : Int), bytes " the") ∈ [((1 : Int), bytes " the")] :=
  ⟨by decide,
    normalization_rule.2.2.2.1 SymbolTable.empty ⟨[(bytes " the", 1)], [(1, bytes " the")]⟩
      (bytes "▁the") 1 (by decide)⟩

/-- C4 (duplicate symbol rejection), as amended. For an input of whitespace-separated
records in which two records, wherever they occur, have the same symbol after normalization,
construction fails and no table is produced: the failure is the duplicate-symbol error or
the duplicate-id error of an earlier record, and it is the duplicate-symbol error when the
ids of the records before the second of the two are pairwise distinct. -/
theorem duplicate_symbol_rejected (A B C : List Record) (r1 r2 : Record) (trail : List Nat)
    (hwf : WellFormed (A ++ r1 :: (B ++ r2 :: C)) trail = true)
    (hsym : normalize r1.tok = normalize r2.tok) :
    (fromBytes (recordsText (A ++ r1 :: (B ++ r2 :: C)) ++ trail) = .error .duplicateSymbol ∨
      fromBytes (recordsText (A ++ r1 :: (B ++ r2 :: C)) ++ trail) = .error .duplicateId) ∧
    (((A ++ r1 :: B).map Record.id).Nodup →
      fromBytes (recordsText (A ++ r1 :: (B ++ r2 :: C)) ++ trail) =
        .error .duplicateSymbol) := by
  rw [fromBytes_records _ _ hwf]
  exact insertAll_repeated_symbol A B C r1 r2 ((WellFormed_iff _ _).1 hwf).1 hsym

/-- The amended C4 on the input "a 1\na 2\n". -/
theorem duplicate_symbol_rejected_witness :
    (WellFormed ([] ++ Record.mk [] (bytes "a") (bytes " ") [] (bytes "1") ::
        ([] ++ Record.mk (bytes "\n") (bytes "a") (bytes " ") [] (bytes "2") :: []))
        (bytes "\n") = true ∧
      normalize (bytes "a") = normalize (bytes "a")) ∧
    ((fromBytes (bytes "a 1\na 2\n") = .error .duplicateSymbol ∨
        fromBytes (bytes "a 1\na 2\n") = .error .duplicateId) ∧
      ((([] ++ Record.mk [] (bytes "a") (bytes " ") [] (bytes "1") :: []).map Record.id).Nodup →
        fromBytes (bytes "a 1\na 2\n") = .error .duplicateSymbol)) :=
  ⟨⟨by decide, rfl⟩,
    duplicate_symbol_rejected [] [] [] ⟨[], bytes "a", bytes " ", [], bytes "1"⟩
      ⟨bytes "\n", bytes "a", bytes " ", [], bytes "2"⟩ (bytes "\n") (by decide) rfl⟩

/-- C4 as stated fails on "a 1\nb 1\na 2\n": the first and the third record have the same
symbol and different ids, but the second record repeats the id 1 first, and construction
fails with the duplicate-id error, not the duplicate-symbol error. -/
theorem duplicate_symbol_rejected_counterexample :
    WellFormed [⟨[], bytes "a", bytes " ", [], bytes "1"⟩,
      ⟨bytes "\n", bytes "b", bytes " ", [], bytes "1"⟩,
      ⟨bytes "\n", bytes "a", bytes " ", [], bytes "2"⟩] (bytes "\n") = true ∧
    recordsText [⟨[], bytes "a", bytes " ", [], bytes "1"⟩,
      ⟨bytes "\n", bytes "b", bytes " ", [], bytes "1"⟩,
      ⟨bytes "\n", bytes "a", bytes " ", [], bytes "2"⟩] ++ bytes "\n" =
      bytes "a 1\nb 1\na 2\n" ∧
    fromBytes (bytes "a 1\nb 1\na 2\n") = .error .duplicateId ∧
    fromBytes (bytes "a 1\nb 1\na 2\n") ≠ .error .duplicateSymbol := by
  decide

/-- C5 (duplicate id rejection), as amended. For an input of whitespace-separated records
in which two records, wherever they occur, have the same id, construction fails and no table
is produced: the failure is the duplicate-id error or the duplicate-symbol error of a record
up to the second of the two, and it is the duplicate-id error when the normalized symbols of
the records up to and including the second of the two are pairwise distinct. -/
theorem duplicate_id_rejected (A B C : List Record) (r1 r2 : Record) (trail : List Nat)
    (hwf : WellFormed (A ++ r1 :: (B ++ r2 :: C)) trail = true)
    (hid : r1.id = r2.id) :
    (fromBytes (recordsText (A ++ r1 :: (B ++ r2 :: C)) ++ trail) = .error .duplicateSymbol ∨
      fromBytes (recordsText (A ++ r1 :: (B ++ r2 :: C)) ++ trail) = .error .duplicateId) ∧
    (((A ++ r1 :: (B ++ [r2])).map (fun r => normalize r.tok)).Nodup →
      fromBytes (recordsText (A ++ r1 :: (B ++ r2 :: C)) ++ trail) = .error .duplicateId) := by
  rw [fromBytes_records _ _ hwf]
  exact insertAll_repeated_id A B C r1 r2 ((WellFormed_iff _ _).1 hwf).1 hid

/-- The amended C5 on the input "a 1\nb 1\n". -/
theorem duplicate_id_rejected_witness :
    (WellFormed ([] ++ Record.mk [] (bytes "a") (bytes " ") [] (bytes "1") ::
        ([] ++ Record.mk (bytes "\n") (bytes "b") (bytes " ") [] (bytes "1") :: []))
        (bytes "\n") = true ∧
      Record.id ⟨[], bytes "a", bytes " ", [], bytes "1"⟩ =
        Record.id ⟨bytes "\n", bytes "b", bytes " ", [], bytes "1"⟩) ∧
    ((fromBytes (bytes "a 1\nb 1\n") = .error .duplicateSymbol ∨
        fromBytes (bytes "a 1\nb 1\n") = .error .duplicateId) ∧
      ((([] ++ Record.mk [] (bytes "a") (bytes " ") [] (bytes "1") ::
          ([] ++ [Record.mk (bytes "\n") (bytes "b") (bytes " ") [] (bytes "1")])).map
            (fun r : Record => normalize r.tok)).Nodup →
        fromBytes (bytes "a 1\nb 1\n") = .error .duplicateId)) :=
  ⟨⟨by decide, by decide⟩,
    duplicate_id_rejected [] [] [] ⟨[], bytes "a", bytes " ", [], bytes "1"⟩
      ⟨bytes "\n", bytes "b", bytes " ", [], bytes "1"⟩ (bytes "\n") (by decide) (by decide)⟩

/-- C5 as stated fails on "a 1\na 2\nb 1\n": the first and the third record have the same
id and different symbols, but the second record repeats the symbol "a" first, and
construction fails with the duplicate-symbol error, not the duplicate-id error. -/
theorem duplicate_id_rejected_counterexample :
    WellFormed [⟨[], bytes "a", bytes " ", [], bytes "1"⟩,
      ⟨bytes "\n", bytes "a", bytes " ", [], bytes "2"⟩,
      ⟨bytes "\n", bytes "b", bytes " ", [], bytes "1"⟩] (bytes "\n") = true ∧
    recordsText [⟨[], bytes "a", bytes " ", [], bytes "1"⟩,
      ⟨bytes "\n", bytes "a", bytes " ", [], bytes "2"⟩,
      ⟨bytes "\n", bytes "b", bytes " ", [], bytes "1"⟩] ++ bytes "\n" =
      bytes "a 1\na 2\nb 1\n" ∧
    fromBytes (bytes "a 1\na 2\nb 1\n") = .error .duplicateSymbol ∧
    fromBytes (bytes "a 1\na 2\nb 1\n") ≠ .error .duplicateId := by
  decide

/-- C6 (no silent truncation on a dangling symbol) fails on the code: on "a 1\nb", and on
"a 1\nb\n", `Init` returns the table of the one complete record. The extraction of the
missing integer sets `eofbit` together with `failbit`, so `assert(is.eof())` passes. -/
theorem dangling_symbol_accepted :
    fromBytes (bytes "a 1\nb") = .ok ⟨[(bytes "a", 1)], [(1, bytes "a")]⟩ ∧
    fromBytes (bytes "a 1\nb\n") = .ok ⟨[(bytes "a", 1)], [(1, bytes "a")]⟩ ∧
    fromBytes (bytes "a 1\n") = .ok ⟨[(bytes "a", 1)], [(1, bytes "a")]⟩ := by
  decide

/-- C7 (non-integer id rejection), as amended. For an input in which, after zero or more
well-formed records, a symbol token is followed by whitespace, an optional sign and then a
byte that is not a decimal digit, construction fails: with the error of `assert(is.eof())`
when the records before pass the checks, and with their duplicate error otherwise. -/
theorem non_integer_id_rejected (recs : List Record) (lead tok gap sign : List Nat) (c : Nat)
    (rest : List Nat) (hwf : WellFormed recs lead = true) (hlead : recs ≠ [] → lead ≠ [])
    (htok : isToken tok = true) (hgap : isGap gap = true)
    (hbad : notIntegerStart sign c = true) :
    (fromBytes (recordsText recs ++ (lead ++ (tok ++ (gap ++ (sign ++ c :: rest))))) =
        .error .notEof ∨
      fromBytes (recordsText recs ++ (lead ++ (tok ++ (gap ++ (sign ++ c :: rest))))) =
        .error .duplicateSymbol ∨
      fromBytes (recordsText recs ++ (lead ++ (tok ++ (gap ++ (sign ++ c :: rest))))) =
        .error .duplicateId) ∧
    (∀ t, insertAll SymbolTable.empty (pairsOf recs) = .ok t →
      fromBytes (recordsText recs ++ (lead ++ (tok ++ (gap ++ (sign ++ c :: rest))))) =
        .error .notEof) := by
  obtain ⟨hv, -, hsp⟩ := (WellFormed_iff recs lead).1 hwf
  simp only [isToken, isGap, notIntegerStart, Bool.and_eq_true, Bool.not_eq_true',
    List.isEmpty_eq_false, List.all_eq_true, Bool.or_eq_true, beq_iff_eq,
    bne_iff_ne, ne_eq] at htok hgap hbad
  obtain ⟨sym', id', k, h⟩ := fromBytes_records_then recs lead
    (tok ++ (gap ++ (sign ++ c :: rest))) hwf hlead
  have hloop : ∀ t1, InitLoop (k + 1)
      ⟨lead ++ (tok ++ (gap ++ (sign ++ c :: rest))), false, false⟩ sym' id' t1 =
        .error .notEof := fun t1 =>
    InitLoop_bad_int k lead tok gap sign c rest sym' id' t1 hsp htok.1
      (fun x hx => by simpa using htok.2 x hx) hgap.1 hgap.2
      (by tauto) hbad.1.2 (fun hs => by
        rcases hbad.2 with h' | h'
        · exact absurd hs h'
        · exact ⟨h'.1.1, h'.1.2, h'.2⟩)
  rw [h]
  cases hP : insertAll SymbolTable.empty (pairsOf recs) with
  | error e =>
    simp only
    rcases insertAll_error_kind _ _ e (pairsOf_ne_nil recs hv) hP with rfl | rfl
    · exact ⟨Or.inr (Or.inl rfl), fun t ht => by cases ht⟩
    · exact ⟨Or.inr (Or.inr rfl), fun t ht => by cases ht⟩
  | ok t1 =>
    simp only [hloop t1]
    exact ⟨Or.inl trivial, fun _ _ => trivial⟩

/-- The amended C7 on the input "a 1\nb x\n" of the claim. -/
theorem non_integer_id_rejected_witness :
    (WellFormed [⟨[], bytes "a", bytes " ", [], bytes "1"⟩] (bytes "\n") = true ∧
      ([Record.mk [] (bytes "a") (bytes " ") [] (bytes "1")] ≠ [] → bytes "\n" ≠ []) ∧
      isToken (bytes "b") = true ∧ isGap (bytes " ") = true ∧
      notIntegerStart [] 120 = true) ∧
    ((fromBytes (bytes "a 1\nb x\n") = .error .notEof ∨
        fromBytes (bytes "a 1\nb x\n") = .error .duplicateSymbol ∨
        fromBytes (bytes "a 1\nb x\n") = .error .duplicateId) ∧
      (∀ t, insertAll SymbolTable.empty
          (pairsOf [⟨[], bytes "a", bytes " ", [], bytes "1"⟩]) = .ok t →
        fromBytes (bytes "a 1\nb x\n") = .error .notEof)) :=
  ⟨⟨by decide, fun _ => by decide, by decide, by decide, by decide⟩,
    non_integer_id_rejected [⟨[], bytes "a", bytes " ", [], bytes "1"⟩] (bytes "\n")
      (bytes "b") (bytes " ") [] 120 (bytes "\n") (by decide) (fun _ => by decide)
      (by decide) (by decide) (by decide)⟩

/-- C7 as stated fails on "a 1x 2\n": the symbol "a" is followed by the token "1x", which
is not a signed decimal integer, yet construction succeeds. The integer extraction stops
after "1", and "x" is read as the symbol of a second record with the id 2. -/
theorem non_integer_id_rejected_counterexample :
    fromBytes (bytes "a 1x 2\n") =
      .ok ⟨[(bytes "a", 1), (bytes "x", 2)], [(1, bytes "a"), (2, bytes "x")]⟩ := by
  decide

/-- C8 (lookup miss). On every constructed table `idOf s` fails exactly when `s` is not a
key of the symbol→id mapping and `symbolOf i` fails exactly when `i` is not a key of the
id→symbol mapping; a hit returns the stored value. -/
theorem lookup_miss (is : IStream) (t : SymbolTable) (h : Init is = .ok t) :
    (∀ s, idOf t s = none ↔ s ∉ t.sym2id_.map Prod.fst) ∧
    (∀ i, symbolOf t i = none ↔ i ∉ t.id2sym_.map Prod.fst) ∧
    (∀ s i, (s, i) ∈ t.sym2id_ → idOf t s = some i) ∧
    (∀ i s, (i, s) ∈ t.id2sym_ → symbolOf t i = some s) := by
  have hwf := Init_WF is t h
  exact ⟨fun s => mapAt_eq_none_iff _ _, fun i => mapAt_eq_none_iff _ _,
    fun s i hsi => mapAt_of_mem _ _ _ (hwf.sortedSym.nodup_keys strLess_strictTotal) hsi,
    fun i s his => mapAt_of_mem _ _ _ (hwf.sortedId.nodup_keys intLess_strictTotal) his⟩

/-- The lookups on the table of the scenario: `idOf "nonexistent"` and `symbolOf 99999`
both fail. -/
theorem lookup_miss_witness :
    Init (IStream.ofBytes scenarioInput) = .ok scenarioTable ∧
    ((∀ s, idOf scenarioTable s = none ↔ s ∉ scenarioTable.sym2id_.map Prod.fst) ∧
     (∀ i, symbolOf scenarioTable i = none ↔ i ∉ scenarioTable.id2sym_.map Prod.fst) ∧
     (∀ s i, (s, i) ∈ scenarioTable.sym2id_ → idOf scenarioTable s = some i) ∧
     (∀ i s, (i, s) ∈ scenarioTable.id2sym_ → symbolOf scenarioTable i = some s)) ∧
    idOf scenarioTable (bytes "nonexistent") = none ∧
    symbolOf scenarioTable 99999 = none :=
  ⟨by decide, lookup_miss (IStream.ofBytes scenarioInput) scenarioTable (by decide),
    by decide, by decide⟩

/-- C9 (membership is total and agrees with lookup). For every table, id and string,
`contains` is a boolean, `contains(i)` is true exactly when `symbolOf i` succeeds and
`contains(s)` is true exactly when `idOf s` succeeds. -/
theorem membership_agrees_with_lookup (t : SymbolTable) (i : Int) (s : Str) :
    (containsId t i = true ↔ ∃ sym, symbolOf t i = some sym) ∧
    (containsId t i = false ↔ symbolOf t i = none) ∧
    (containsSym t s = true ↔ ∃ id, idOf t s = some id) ∧
    (containsSym t s = false ↔ idOf t s = none) := by
  have h1 : containsId t i = false ↔ symbolOf t i = none := by
    unfold containsId symbolOf
    rw [mapAt_eq_none_iff, ← mapCount_eq_zero_iff]
    simp
  have h2 : containsSym t s = false ↔ idOf t s = none := by
    unfold containsSym idOf
    rw [mapAt_eq_none_iff, ← mapCount_eq_zero_iff]
    simp
  refine ⟨?_, h1, ?_, h2⟩
  · rw [← Option.isSome_iff_exists, ← Bool.not_eq_false, h1, ← Option.not_isSome_iff_eq_none,
      not_not]
  · rw [← Option.isSome_iff_exists, ← Bool.not_eq_false, h2, ← Option.not_isSome_iff_eq_none,
      not_not]

/-- C10 (serialization format and order). For every constructed table, `ToString` is the
concatenation of the lines `symbol`, one space, the decimal id, newline over the entries of
the symbol→id mapping taken in ascending lexicographic order of symbol (whatever list
`es` presents these entries in that order), the entries have pairwise different symbols,
each id is written in decimal notation, and there are exactly as many newlines as
entries. -/
theorem serialization_format (is : IStream) (t : SymbolTable) (h : Init is = .ok t) :
    (∀ es : List (Str × Int), es.Perm t.sym2id_ → es.Pairwise (fun p q => p.1 < q.1) →
      ToString t = es.flatMap (fun p => p.1 ++ [32] ++ intToDec p.2 ++ [10])) ∧
    t.sym2id_.Pairwise (fun p q => p.1 < q.1) ∧
    (∀ p ∈ t.sym2id_, ∃ ds, intToDec p.2 = (if p.2 < 0 then [45] else []) ++ ds ∧ ds ≠ [] ∧
      (∀ d ∈ ds, isdigit d = true) ∧ digitsValue ds = p.2.natAbs) ∧
    (ToString t).count 10 = t.sym2id_.length := by
  have hwf := Init_WF is t h
  have hsorted : t.sym2id_.Pairwise (fun p q => p.1 < q.1) :=
    hwf.sortedSym.imp (fun {p q} hpq => (strLess_iff_lt p.1 q.1).1 hpq)
  refine ⟨?_, hsorted, fun p _ => intToDec_spec p.2, ?_⟩
  · intro es hperm hes
    haveI : IsAntisymm (Str × Int) (fun p q => p.1 < q.1) :=
      ⟨fun p q h1 h2 => absurd h2 (lt_asymm h1)⟩
    have : es = t.sym2id_ := List.eq_of_perm_of_sorted hperm hes hsorted
    rw [this]
    rfl
  · exact count_newline_lines _ (FromTokens_no_newline t (Init_FromTokens is t h))

/-- The serialization of the table of the scenario: the entry " hello" comes first, as the
space is the smallest first byte. -/
theorem serialization_format_witness :
    Init (IStream.ofBytes scenarioInput) = .ok scenarioTable ∧
    ((∀ es : List (Str × Int), es.Perm scenarioTable.sym2id_ →
        es.Pairwise (fun p q => p.1 < q.1) →
        ToString scenarioTable = es.flatMap (fun p => p.1 ++ [32] ++ intToDec p.2 ++ [10])) ∧
     scenarioTable.sym2id_.Pairwise (fun p q => p.1 < q.1) ∧
     (∀ p ∈ scenarioTable.sym2id_, ∃ ds,
        intToDec p.2 = (if p.2 < 0 then [45] else []) ++ ds ∧ ds ≠ [] ∧
        (∀ d ∈ ds, isdigit d = true) ∧ digitsValue ds = p.2.natAbs) ∧
     (ToString scenarioTable).count 10 = scenarioTable.sym2id_.length) ∧
    ToString scenarioTable = bytes " hello 1\n<unk> 0\nworld 2\n" :=
  ⟨by decide, serialization_format (IStream.ofBytes scenarioInput) scenarioTable (by decide),
    by decide⟩

/-- C11 (round-trip serialization), as amended. For every constructed table in which no
stored symbol begins with a space, construction from the text `ToString` writes succeeds
and yields a table with the same symbol→id mapping. -/
theorem round_trip_without_leading_space (is : IStream) (t : SymbolTable)
    (h : Init is = .ok t) (hsp : ∀ p ∈ t.sym2id_, p.1.head? ≠ some 32) :
    ∃ t', fromBytes (ToString t) = .ok t' ∧ t'.sym2id_ = t.sym2id_ :=
  ⟨t, fromBytes_lines_perm is t h hsp t.sym2id_ (List.Perm.refl _), rfl⟩

/-- The amended C11 on the table of the input "<unk> 0\nworld 2\n". -/
theorem round_trip_without_leading_space_witness :
    (Init (IStream.ofBytes (bytes "<unk> 0\nworld 2\n")) =
        .ok ⟨[(bytes "<unk>", 0), (bytes "world", 2)], [(0, bytes "<unk>"), (2, bytes "world")]⟩ ∧
      ∀ p ∈ [(bytes "<unk>", (0 : Int)), (bytes "world", (2 : Int))], p.1.head? ≠ some 32) ∧
    ∃ t', fromBytes (ToString
        ⟨[(bytes "<unk>", 0), (bytes "world", 2)], [(0, bytes "<unk>"), (2, bytes "world")]⟩) =
        .ok t' ∧
      t'.sym2id_ = [(bytes "<unk>", 0), (bytes "world", 2)] :=
  ⟨⟨by decide, by decide⟩,
    round_trip_without_leading_space (IStream.ofBytes (bytes "<unk> 0\nworld 2\n"))
      ⟨[(bytes "<unk>", 0), (bytes "world", 2)], [(0, bytes "<unk>"), (2, bytes "world")]⟩
      (by decide) (by decide)⟩

/-- C11 as stated fails on the table of the scenario: `ToString` writes " hello 1" for the
symbol " hello", the leading space is skipped as whitespace when the text is read back, and
the new table has the symbol "hello" instead. On the table of "▁a 1\na 2\n" reading the
text back even fails, with a duplicate symbol. -/
theorem round_trip_counterexample :
    fromBytes scenarioInput = .ok scenarioTable ∧
    ToString scenarioTable = bytes " hello 1\n<unk> 0\nworld 2\n" ∧
    fromBytes (ToString scenarioTable) =
      .ok ⟨[(bytes "<unk>", 0), (bytes "hello", 1), (bytes "world", 2)],
           [(0, bytes "<unk>"), (1, bytes "hello"), (2, bytes "world")]⟩ ∧
    (¬ ∃ t', fromBytes (ToString scenarioTable) = .ok t' ∧
      t'.sym2id_ = scenarioTable.sym2id_) ∧
    fromBytes (bytes "▁a 1\na 2\n") =
      .ok ⟨[(bytes " a", 1), (bytes "a", 2)], [(1, bytes " a"), (2, bytes "a")]⟩ ∧
    fromBytes (ToString ⟨[(bytes " a", 1), (bytes "a", 2)], [(1, bytes " a"), (2, bytes "a")]⟩) =
      .error .duplicateSymbol := by
  refine ⟨by decide, by decide, by decide, ?_, by decide, by decide⟩
  rintro ⟨t', h1, h2⟩
  have h3 : fromBytes (ToString scenarioTable) =
      .ok ⟨[(bytes "<unk>", 0), (bytes "hello", 1), (bytes "world", 2)],
           [(0, bytes "<unk>"), (1, bytes "hello"), (2, bytes "world")]⟩ := by decide
  rw [h3] at h1
  cases h1
  revert h2
  decide

/-- C12 (non-empty symbols), as amended. In every constructed table every stored symbol is
non-empty. In an input of whitespace-separated records whose other records have pairwise
distinct stored symbols, a record whose token is exactly the marker E2 96 81, with an id not
used elsewhere and no other record whose token is the marker alone, is accepted, and its
symbol is stored as the one-byte string " ". -/
theorem marker_only_symbol_accepted (A C : List Record) (r : Record) (trail : List Nat)
    (hwf : WellFormed (A ++ r :: C) trail = true) (hr : r.tok = marker)
    (hsyms : ((A ++ C).map (fun r => normalize r.tok)).Nodup)
    (hids : ((A ++ r :: C).map Record.id).Nodup)
    (hother : ∀ r' ∈ A ++ C, r'.tok ≠ marker) :
    (∃ t, fromBytes (recordsText (A ++ r :: C) ++ trail) = .ok t ∧
      idOf t [32] = some r.id ∧ symbolOf t r.id = some [32] ∧
      (∀ p ∈ t.sym2id_, p.1 ≠ [])) ∧
    (∀ (is : IStream) (t : SymbolTable), Init is = .ok t →
      (∀ p ∈ t.sym2id_, p.1 ≠ []) ∧ (∀ p ∈ t.id2sym_, p.2 ≠ [])) := by
  refine ⟨?_, Init_symbols_ne_nil⟩
  obtain ⟨hv, -, -⟩ := (WellFormed_iff _ trail).1 hwf
  have hnorm : normalize r.tok = [32] := by rw [hr]; decide
  have hsyms' : ((A ++ r :: C).map (fun r => normalize r.tok)).Nodup := by
    rw [List.map_append, List.map_cons, List.nodup_middle, List.nodup_cons, ← List.map_append]
    refine ⟨?_, hsyms⟩
    intro hmem
    obtain ⟨r', hr', he⟩ := List.mem_map.1 hmem
    have hv' : r'.valid = true := hv r' (by
      rcases List.mem_append.1 hr' with h | h
      · exact List.mem_append_left _ h
      · exact List.mem_append_right _ (List.mem_cons_of_mem _ h))
    have := normalize_injective r'.tok r.tok (Record.tok_spec r' hv').2
      (Record.tok_spec r (hv r (by simp))).2 he
    exact hother r' hr' (this.trans hr)
  obtain ⟨t, ht, twf, hmem⟩ := fromBytes_ok _ trail hwf hsyms' hids
  have hin : (([32] : Str), r.id) ∈ t.sym2id_ :=
    (hmem _).2 (List.mem_map.2 ⟨r, by simp, by rw [hnorm]⟩)
  obtain ⟨h1, h2⟩ := WF_lookup t twf [32] r.id hin
  exact ⟨t, ht, h1, h2, (Init_symbols_ne_nil _ t ht).1⟩

/-- The amended C12 on the input "<unk> 0\n▁ 7\n": the table stores " " for the id 7. -/
theorem marker_only_symbol_accepted_witness :
    (WellFormed ([Record.mk [] (bytes "<unk>") (bytes " ") [] (bytes "0")] ++
        Record.mk (bytes "\n") (bytes "▁") (bytes " ") [] (bytes "7") :: []) (bytes "\n") = true ∧
      bytes "▁" = marker) ∧
    recordsText ([Record.mk [] (bytes "<unk>") (bytes " ") [] (bytes "0")] ++
        Record.mk (bytes "\n") (bytes "▁") (bytes " ") [] (bytes "7") :: []) ++ bytes "\n" =
      bytes "<unk> 0\n▁ 7\n" ∧
    ∃ t, fromBytes (bytes "<unk> 0\n▁ 7\n") = .ok t ∧
      idOf t [32] = some 7 ∧ symbolOf t 7 = some [32] ∧ (∀ p ∈ t.sym2id_, p.1 ≠ []) :=
  ⟨⟨by decide, by decide⟩, by decide,
    (marker_only_symbol_accepted [⟨[], bytes "<unk>", bytes " ", [], bytes "0"⟩] []
      ⟨bytes "\n", bytes "▁", bytes " ", [], bytes "7"⟩ (bytes "\n")
      (by decide) (by decide) (by decide) (by decide) (by decide)).1⟩

/-- C12 as stated fails on "▁ 1\n▁ 2\n": the token of the second record is exactly the
marker and its id 2 is used nowhere else, but its stored symbol " " repeats that of the
first record, and construction fails with the duplicate-symbol error. -/
theorem marker_only_symbol_accepted_counterexample :
    WellFormed [⟨[], marker, bytes " ", [], bytes "1"⟩,
      ⟨bytes "\n", marker, bytes " ", [], bytes "2"⟩] (bytes "\n") = true ∧
    recordsText [⟨[], marker, bytes " ", [], bytes "1"⟩,
      ⟨bytes "\n", marker, bytes " ", [], bytes "2"⟩] ++ bytes "\n" = bytes "▁ 1\n▁ 2\n" ∧
    (2 : Int) ∉ [(1 : Int)] ∧
    fromBytes (bytes "▁ 1\n▁ 2\n") = .error .duplicateSymbol := by
  decide

/-- C13 (normalization is idempotent). For every byte string `s`,
`normalize (normalize s) = normalize s`; no normalized string, and so no symbol stored in a
constructed table, begins with the bytes E2 96 81. -/
theorem normalization_idempotent (is : IStream) (t : SymbolTable) (h : Init is = .ok t) :
    (∀ s : Str, normalize (normalize s) = normalize s) ∧
    (∀ s : Str, ¬ (marker <+: normalize s)) ∧
    (∀ p ∈ t.sym2id_, ¬ (marker <+: p.1)) ∧
    (∀ p ∈ t.id2sym_, ¬ (marker <+: p.2)) := by
  have hft := Init_FromTokens is t h
  have hwf := Init_WF is t h
  have hsym : ∀ p ∈ t.sym2id_, ¬ (marker <+: p.1) := by
    intro p hp
    obtain ⟨⟨tok, -, -, hp1⟩, -⟩ := hft p hp
    rw [hp1]
    exact not_marker_prefix_normalize tok
  refine ⟨normalize_idem, not_marker_prefix_normalize, hsym, ?_⟩
  intro p hp
  exact hsym (p.2, p.1) ((hwf.inverse p.2 p.1).2 hp)

/-- The idempotence of normalization on the table of the input "▁▁x 1\n", whose token has
two leading markers: the stored symbol is a space, the second marker and "x". -/
theorem normalization_idempotent_witness :
    Init (IStream.ofBytes (bytes "▁▁x 1\n")) =
      .ok ⟨[(32 :: 0xE2 :: 0x96 :: 0x81 :: bytes "x", 1)],
           [(1, 32 :: 0xE2 :: 0x96 :: 0x81 :: bytes "x")]⟩ ∧
    ((∀ s : Str, normalize (normalize s) = normalize s) ∧
     (∀ s : Str, ¬ (marker <+: normalize s)) ∧
     (∀ p ∈ [(32 :: 0xE2 :: 0x96 :: 0x81 :: bytes "x", (1 : Int))], ¬ (marker <+: p.1)) ∧
     (∀ p ∈ [((1 : Int), 32 :: 0xE2 :: 0x96 :: 0x81 :: bytes "x")], ¬ (marker <+: p.2))) :=
  ⟨by decide,
    normalization_idempotent (IStream.ofBytes (bytes "▁▁x 1\n"))
      ⟨[(32 :: 0xE2 :: 0x96 :: 0x81 :: bytes "x", 1)],
       [(1, 32 :: 0xE2 :: 0x96 :: 0x81 :: bytes "x")]⟩ (by decide)⟩

/-- C14 (validation order). The loop body checks, in this order, that the symbol is not
empty, that it is not a key yet, and that the id is not a key yet; the records are checked
in stream order, so when the records before a record pass and that record repeats both an
earlier stored symbol and an earlier id, construction fails with the duplicate-symbol
error. -/
theorem validation_order (P C : List Record) (r : Record) (trail : List Nat)
    (hwf : WellFormed (P ++ r :: C) trail = true)
    (hPs : (P.map (fun r => normalize r.tok)).Nodup) (hPi : (P.map Record.id).Nodup)
    (hs : normalize r.tok ∈ P.map (fun r => normalize r.tok))
    (hi : r.id ∈ P.map Record.id) :
    (∃ t1, insertAll SymbolTable.empty (pairsOf P) = .ok t1 ∧
      mapCount t1.sym2id_ (normalize r.tok) ≠ 0 ∧ mapCount t1.id2sym_ r.id ≠ 0 ∧
      insertRecord t1 r.tok r.id = .error .duplicateSymbol) ∧
    fromBytes (recordsText (P ++ r :: C) ++ trail) = .error .duplicateSymbol ∧
    (∀ (t : SymbolTable) (id : Int), insertRecord t [] id = .error .emptySymbol) ∧
    (∀ (t : SymbolTable) (sym : Str) (id : Int), sym ≠ [] →
      mapCount t.sym2id_ (normalize sym) ≠ 0 →
      insertRecord t sym id = .error .duplicateSymbol) ∧
    (∀ (t : SymbolTable) (sym : Str) (id : Int), sym ≠ [] →
      mapCount t.sym2id_ (normalize sym) = 0 → mapCount t.id2sym_ id ≠ 0 →
      insertRecord t sym id = .error .duplicateId) := by
  obtain ⟨hv, -, -⟩ := (WellFormed_iff _ trail).1 hwf
  have hvP : ∀ x ∈ P, x.valid = true := fun x hx => hv x (List.mem_append_left _ hx)
  have hne : r.tok ≠ [] := (Record.tok_spec r (hv r (by simp))).1
  obtain ⟨t1, ht1⟩ := insertAll_ok_of (pairsOf P) SymbolTable.empty (pairsOf_ne_nil P hvP)
    (symsOf_pairsOf P ▸ hPs) (by simp [SymbolTable.empty])
    (idsOf_pairsOf P ▸ hPi) (by simp [SymbolTable.empty])
  obtain ⟨hks, hki⟩ := insertAll_keys _ _ t1 WF_empty ht1
  have hsin : normalize r.tok ∈ t1.sym2id_.map Prod.fst := by
    rw [hks, symsOf_pairsOf]; exact Or.inr hs
  have hiin : r.id ∈ t1.id2sym_.map Prod.fst := by
    rw [hki, idsOf_pairsOf]; exact Or.inr hi
  have hrec := insertRecord_duplicateSymbol t1 r.tok r.id hne hsin
  refine ⟨⟨t1, ht1, (mapCount_ne_zero_iff _ _).2 hsin, (mapCount_ne_zero_iff _ _).2 hiin, hrec⟩,
    ?_, ?_, ?_, ?_⟩
  · rw [fromBytes_records _ _ hwf, pairsOf_append, insertAll_append, ht1]
    simp only [pairsOf, List.map_cons, insertAll, hrec]
  · intro t id
    simp [insertRecord, normalize]
  · intro t sym id hsym hc
    exact insertRecord_duplicateSymbol t sym id hsym ((mapCount_ne_zero_iff _ _).1 hc)
  · intro t sym id hsym hc hd
    exact insertRecord_duplicateId t sym id hsym ((mapCount_eq_zero_iff _ _).1 hc)
      ((mapCount_ne_zero_iff _ _).1 hd)

/-- The validation order on the input "a 1\nb 2\na 2\n": the third record repeats the
symbol of the first and the id of the second, and the duplicate-symbol error is reported. -/
theorem validation_order_witness :
    (WellFormed ([Record.mk [] (bytes "a") (bytes " ") [] (bytes "1"),
        Record.mk (bytes "\n") (bytes "b") (bytes " ") [] (bytes "2")] ++
        Record.mk (bytes "\n") (bytes "a") (bytes " ") [] (bytes "2") :: []) (bytes "\n") = true ∧
      normalize (bytes "a") ∈ [normalize (bytes "a"), normalize (bytes "b")] ∧
      (2 : Int) ∈ [(1 : Int), 2]) ∧
    fromBytes (bytes "a 1\nb 2\na 2\n") = .error .duplicateSymbol :=
  ⟨⟨by decide, by decide, by decide⟩,
    (validation_order
      [⟨[], bytes "a", bytes " ", [], bytes "1"⟩, ⟨bytes "\n", bytes "b", bytes " ", [], bytes "2"⟩]
      [] ⟨bytes "\n", bytes "a", bytes " ", [], bytes "2"⟩ (bytes "\n")
      (by decide) (by decide) (by decide) (by decide) (by decide)).2.1⟩

/-- C15 (the empty-symbol check is unreachable). Every token a string extraction yields is a
non-empty run of bytes that are not whitespace, normalization of a non-empty string is
non-empty, the loop body never fails `assert(!sym.empty())` on a non-empty token, and for
every stream `Init` never fails with the empty-symbol error. -/
theorem empty_symbol_unreachable :
    (∀ (is : IStream) (sym : Str), (extractString is sym).1.failbit = false →
      (extractString is sym).2 ≠ [] ∧ ∀ c ∈ (extractString is sym).2, isspace c = false) ∧
    (∀ s : Str, s ≠ [] → normalize s ≠ []) ∧
    (∀ (t : SymbolTable) (s : Str) (id : Int), s ≠ [] →
      insertRecord t s id ≠ .error .emptySymbol) ∧
    (∀ is : IStream, Init is ≠ .error .emptySymbol) := by
  refine ⟨extractString_token_of_ok, ?_, ?_, fun is => InitLoop_ne_emptySymbol _ _ _ _ _⟩
  · intro s hs hn
    exact hs ((normalize_eq_nil_iff s).1 hn)
  · intro t s id hs he
    rcases insertRecord_error t s id _ he with ⟨-, h⟩ | ⟨h, -⟩ | ⟨h, -⟩
    · exact hs h
    · cases h
    · cases h

/-- The extraction of the token "▁" from the input "▁ 7\n": the token is not empty, and
neither is its normalization, the one-byte string " ". -/
theorem empty_symbol_unreachable_witness :
    (extractString (IStream.ofBytes (bytes "▁ 7\n")) []).1.failbit = false ∧
    ((extractString (IStream.ofBytes (bytes "▁ 7\n")) []).2 ≠ [] ∧
      ∀ c ∈ (extractString (IStream.ofBytes (bytes "▁ 7\n")) []).2, isspace c = false) ∧
    normalize (extractString (IStream.ofBytes (bytes "▁ 7\n")) []).2 = [32] :=
  ⟨by decide,
    empty_symbol_unreachable.1 (IStream.ofBytes (bytes "▁ 7\n")) [] (by decide),
    by decide⟩

/-- C16 (normalization is injective on parsed tokens), as amended. For two tokens without
whitespace, `normalize a = normalize b` implies `a = b`. Hence, on an input of
whitespace-separated records, a failure with the duplicate-symbol error implies that two
records carry byte-identical raw tokens, and when the ids of the records are pairwise
distinct construction fails with the duplicate-symbol error exactly when two records carry
byte-identical raw tokens. -/
theorem normalization_injective_on_tokens (recs : List Record) (trail : List Nat)
    (hwf : WellFormed recs trail = true) :
    (∀ a b : Str, isToken a = true → isToken b = true → normalize a = normalize b → a = b) ∧
    (fromBytes (recordsText recs ++ trail) = .error .duplicateSymbol →
      ¬ (recs.map (fun r => r.tok)).Nodup) ∧
    ((recs.map Record.id).Nodup →
      (fromBytes (recordsText recs ++ trail) = .error .duplicateSymbol ↔
        ¬ (recs.map (fun r => r.tok)).Nodup)) := by
  obtain ⟨hv, -, -⟩ := (WellFormed_iff recs trail).1 hwf
  have hfwd : fromBytes (recordsText recs ++ trail) = .error .duplicateSymbol →
      ¬ (recs.map (fun r => r.tok)).Nodup := by
    intro h hnd
    rw [fromBytes_records _ _ hwf] at h
    exact insertAll_ne_duplicateSymbol (pairsOf recs) SymbolTable.empty
      (symsOf_pairsOf recs ▸ (nodup_syms_iff_nodup_toks recs hv).2 hnd)
      (by simp [SymbolTable.empty]) h
  refine ⟨?_, hfwd, fun hids => ⟨hfwd, ?_⟩⟩
  · intro a b ha hb hab
    simp only [isToken, Bool.and_eq_true, List.all_eq_true, Bool.not_eq_true'] at ha hb
    exact normalize_injective a b ha.2 hb.2 hab
  · intro hnd
    rw [fromBytes_records _ _ hwf]
    cases hres : insertAll SymbolTable.empty (pairsOf recs) with
    | ok t =>
      obtain ⟨-, hns, -⟩ := insertAll_ok _ _ t WF_empty hres
      rw [symsOf_pairsOf] at hns
      exact absurd ((nodup_syms_iff_nodup_toks recs hv).1 hns) hnd
    | error e =>
      rcases insertAll_error_kind _ _ e (pairsOf_ne_nil recs hv) hres with rfl | rfl
      · rfl
      · exact absurd hres (insertAll_ne_duplicateId _ _ (idsOf_pairsOf recs ▸ hids)
          (by simp [SymbolTable.empty]))

/-- The amended C16 on the input "a 1\na 2\n". -/
theorem normalization_injective_on_tokens_witness :
    WellFormed [⟨[], bytes "a", bytes " ", [], bytes "1"⟩,
      ⟨bytes "\n", bytes "a", bytes " ", [], bytes "2"⟩] (bytes "\n") = true ∧
    ([Record.id ⟨[], bytes "a", bytes " ", [], bytes "1"⟩,
      Record.id ⟨bytes "\n", bytes "a", bytes " ", [], bytes "2"⟩].Nodup →
      (fromBytes (bytes "a 1\na 2\n") = .error .duplicateSymbol ↔
        ¬ [bytes "a", bytes "a"].Nodup)) ∧
    fromBytes (bytes "a 1\na 2\n") = .error .duplicateSymbol :=
  ⟨by decide,
    (normalization_injective_on_tokens
      [⟨[], bytes "a", bytes " ", [], bytes "1"⟩, ⟨bytes "\n", bytes "a", bytes " ", [], bytes "2"⟩]
      (bytes "\n") (by decide)).2.2,
    by decide⟩

/-- C16 as stated fails on "x 7\ny 7\nx 8\n": the first and the third record carry the
byte-identical raw token "x", but the second record repeats the id 7 first, and
construction fails with the duplicate-id error, not with a duplicate symbol. -/
theorem normalization_injective_on_tokens_counterexample :
    WellFormed [⟨[], bytes "x", bytes " ", [], bytes "7"⟩,
      ⟨bytes "\n", bytes "y", bytes " ", [], bytes "7"⟩,
      ⟨bytes "\n", bytes "x", bytes " ", [], bytes "8"⟩] (bytes "\n") = true ∧
    recordsText [⟨[], bytes "x", bytes " ", [], bytes "7"⟩,
      ⟨bytes "\n", bytes "y", bytes " ", [], bytes "7"⟩,
      ⟨bytes "\n", bytes "x", bytes " ", [], bytes "8"⟩] ++ bytes "\n" =
      bytes "x 7\ny 7\nx 8\n" ∧
    ¬ [bytes "x", bytes "y", bytes "x"].Nodup ∧
    fromBytes (bytes "x 7\ny 7\nx 8\n") = .error .duplicateId ∧
    fromBytes (bytes "x 7\ny 7\nx 8\n") ≠ .error .duplicateSymbol := by
  decide

/-- C17 (whitespace insensitivity) fails on the code: the inputs "a 1\nb -" and "a 1\nb -\n"
have the same whitespace-separated tokens, `Init` accepts the first, returning the table of
the one complete record, and fails `assert(is.eof())` on the second; the same happens with
an id outside the 32-bit range in place of the bare sign. -/
theorem trailing_whitespace_changes_outcome :
    tokens (bytes "a 1\nb -\n") = tokens (bytes "a 1\nb -") ∧
    tokens (bytes "a 1\nb -") = [bytes "a", bytes "1", bytes "b", bytes "-"] ∧
    fromBytes (bytes "a 1\nb -") = .ok ⟨[(bytes "a", 1)], [(1, bytes "a")]⟩ ∧
    fromBytes (bytes "a 1\nb -\n") = .error .notEof ∧
    tokens (bytes "a 1\nb 99999999999\n") = tokens (bytes "a 1\nb 99999999999") ∧
    fromBytes (bytes "a 1\nb 99999999999") = .ok ⟨[(bytes "a", 1)], [(1, bytes "a")]⟩ ∧
    fromBytes (bytes "a 1\nb 99999999999\n") = .error .notEof := by
  decide

/-- C18 (restricted round trip). For every constructed table in which no stored symbol
begins with a space, construction from the text `ToString` writes succeeds and yields the
same table, both mappings, and so does construction from the lines of the entries written
in any other order. On an accepted input of records no stored symbol begins with a space
exactly when no token begins with the marker. -/
theorem restricted_round_trip (is : IStream) (t : SymbolTable) (h : Init is = .ok t)
    (hsp : ∀ p ∈ t.sym2id_, p.1.head? ≠ some 32) :
    fromBytes (ToString t) = .ok t ∧
    (∀ es : List (Str × Int), es.Perm t.sym2id_ →
      fromBytes (es.flatMap (fun q => q.1 ++ [32] ++ intToDec q.2 ++ [10])) = .ok t) ∧
    (∀ (recs : List Record) (trail : List Nat) (t1 : SymbolTable),
      WellFormed recs trail = true → fromBytes (recordsText recs ++ trail) = .ok t1 →
      ((∀ p ∈ t1.sym2id_, p.1.head? ≠ some 32) ↔ (∀ r ∈ recs, ¬ (marker <+: r.tok)))) :=
  ⟨fromBytes_lines_perm is t h hsp t.sym2id_ (List.Perm.refl _),
    fun es hperm => fromBytes_lines_perm is t h hsp es hperm,
    fun recs trail t1 hwf h1 => leading_space_iff_marker recs trail t1 hwf h1⟩

/-- The restricted round trip on the table of the input "world 2\n<unk> 0\n": the text
`ToString` writes, and the lines in the order of the input, both give the table back. -/
theorem restricted_round_trip_witness :
    (Init (IStream.ofBytes (bytes "world 2\n<unk> 0\n")) =
        .ok ⟨[(bytes "<unk>", 0), (bytes "world", 2)], [(0, bytes "<unk>"), (2, bytes "world")]⟩ ∧
      ∀ p ∈ [(bytes "<unk>", (0 : Int)), (bytes "world", (2 : Int))], p.1.head? ≠ some 32) ∧
    ToString ⟨[(bytes "<unk>", 0), (bytes "world", 2)], [(0, bytes "<unk>"), (2, bytes "world")]⟩ =
      bytes "<unk> 0\nworld 2\n" ∧
    fromBytes (bytes "<unk> 0\nworld 2\n") =
      .ok ⟨[(bytes "<unk>", 0), (bytes "world", 2)], [(0, bytes "<unk>"), (2, bytes "world")]⟩ ∧
    fromBytes (bytes "world 2\n<unk> 0\n") =
      .ok ⟨[(bytes "<unk>", 0), (bytes "world", 2)], [(0, bytes "<unk>"), (2, bytes "world")]⟩ := by
  have hyp : Init (IStream.ofBytes (bytes "world 2\n<unk> 0\n")) =
        .ok ⟨[(bytes "<unk>", 0), (bytes "world", 2)], [(0, bytes "<unk>"), (2, bytes "world")]⟩ ∧
      ∀ p ∈ [(bytes "<unk>", (0 : Int)), (bytes "world", (2 : Int))], p.1.head? ≠ some 32 :=
    ⟨by decide, by decide⟩
  have key := restricted_round_trip (IStream.ofBytes (bytes "world 2\n<unk> 0\n"))
    ⟨[(bytes "<unk>", 0), (bytes "world", 2)], [(0, bytes "<unk>"), (2, bytes "world")]⟩
    hyp.1 hyp.2
  have htxt : ToString ⟨[(bytes "<unk>", 0), (bytes "world", 2)],
      [(0, bytes "<unk>"), (2, bytes "world")]⟩ = bytes "<unk> 0\nworld 2\n" := by decide
  refine ⟨hyp, htxt, htxt ▸ key.1, ?_⟩
  have := key.2.1 [(bytes "world", 2), (bytes "<unk>", 0)] (List.Perm.swap _ _ _)
  exact this

end SherpaNcnn
